import Mathlib

/-!
# Verification of the MolSAIC Packmol tool integration

Shallow embedding of `src/external_tools/packmol.py` (class `PackmolTool`):
the Packmol input-file dialect parser (`parse_packmol_file`), the generator
(`generate_packmol_file`), the recursive deep-merge updater (`update_dict`),
input staging (`prepare_inputs`), command construction (`build_command`) and
output classification (`process_output`).

Python strings are modelled as Lean `String`s, with whitespace handling
(`str.strip`, `str.split`, the `\s` regex class) implemented over `List Char`
by the functions below, all using the single whitespace class `isWSC`.
Python dicts are modelled as insertion-ordered association lists whose
assignment (`d[k] = v`) updates an existing key in place and otherwise
appends (the semantics of CPython dicts).
-/

namespace Packmol

/-- Whitespace class shared by the model of `str.strip`, `str.split` and the
regex class `\s` (space, tab, newline, carriage return). -/
def isWSC (c : Char) : Bool :=
  c == ' ' || c == '\t' || c == '\n' || c == '\r'

/-- ASCII lowercasing of one character, as used by `str.lower` on the
characters occurring in Packmol input decks. -/
def lowerC : Char → Char
  | 'A' => 'a' | 'B' => 'b' | 'C' => 'c' | 'D' => 'd' | 'E' => 'e'
  | 'F' => 'f' | 'G' => 'g' | 'H' => 'h' | 'I' => 'i' | 'J' => 'j'
  | 'K' => 'k' | 'L' => 'l' | 'M' => 'm' | 'N' => 'n' | 'O' => 'o'
  | 'P' => 'p' | 'Q' => 'q' | 'R' => 'r' | 'S' => 's' | 'T' => 't'
  | 'U' => 'u' | 'V' => 'v' | 'W' => 'w' | 'X' => 'x' | 'Y' => 'y'
  | 'Z' => 'z' | c => c

def lowerL (l : List Char) : List Char := l.map lowerC

/-- `str.strip()`: remove leading and trailing whitespace. -/
def trimL (l : List Char) : List Char :=
  ((l.dropWhile isWSC).reverse.dropWhile isWSC).reverse

/-- Helper for `str.split()`: accumulate the current token (reversed). -/
def splitWSAux : List Char → List Char → List (List Char)
  | [], acc => if acc.isEmpty then [] else [acc.reverse]
  | c :: cs, acc =>
    if isWSC c then
      if acc.isEmpty then splitWSAux cs [] else acc.reverse :: splitWSAux cs []
    else
      splitWSAux cs (c :: acc)

/-- `str.split()` with no arguments: split on whitespace runs, no empties. -/
def splitWSL (l : List Char) : List (List Char) := splitWSAux l []

/-- `sep.join(tokens)` for lists of characters. -/
def joinSepL (sep : List Char) : List (List Char) → List Char
  | [] => []
  | [t] => t
  | t :: t' :: ts => t ++ sep ++ joinSepL sep (t' :: ts)

/-- Bool-valued prefix test on char lists (`str.startswith`). -/
def prefL : List Char → List Char → Bool
  | [], _ => true
  | _ :: _, [] => false
  | a :: as, b :: bs => a == b && prefL as bs

/-- Bool-valued substring test on char lists (Python `in` on strings). -/
def infL (p : List Char) : List Char → Bool
  | [] => p.isEmpty
  | c :: cs => prefL p (c :: cs) || infL p cs

-- String wrappers ----------------------------------------------------------

def strTrim (s : String) : String := ⟨trimL s.data⟩
def strSplit (s : String) : List String := (splitWSL s.data).map String.mk
def strLower (s : String) : String := ⟨lowerL s.data⟩
def strStarts (s pre : String) : Bool := prefL pre.data s.data
def strHas (s sub : String) : Bool := infL sub.data s.data
def joinSp (ts : List String) : String := ⟨joinSepL [' '] (ts.map String.data)⟩

/-- Split a text into its lines (`file.readlines()` up to the retained
newline characters, which `str.strip` removes anyway). -/
def splitLinesL : List Char → List Char → List String
  | [], acc => [⟨acc.reverse⟩]
  | c :: cs, acc =>
    if c == '\n' then ⟨acc.reverse⟩ :: splitLinesL cs []
    else splitLinesL cs (c :: acc)

def strLines (s : String) : List String := splitLinesL s.data []

-- Configuration model ------------------------------------------------------

/-- One parsed `inside`/`outside` constraint dict
`{"keyword": .., "block": .., "params": ..}`. -/
structure SimpleConstraint where
  keyword : String
  block : String
  params : List String
deriving DecidableEq, Repr

/-- The nested dict of an `atoms` constraint:
`{"atoms": .., "constraints": ..}`. -/
structure AtomsData where
  atoms : List String
  constraints : List String
deriving DecidableEq, Repr

/-- A constraint entry of a structure block: either the
`{"keyword": "atoms", "data": ..}` dict or a simple constraint dict. -/
inductive PCon where
  | atomsC : AtomsData → PCon
  | simpleC : SimpleConstraint → PCon
deriving DecidableEq, Repr

/-- One `structure ... end structure` block as built by the parser. -/
structure StructBlock where
  structure_file : String
  properties : List (String × List String)
  constraints : List PCon
  others : List String
deriving DecidableEq, Repr

/-- The configuration dict `{"global": .., "structures": ..}`. -/
structure Config where
  globalOpts : List (String × List String)
  structures : List StructBlock
deriving DecidableEq, Repr

/-- Python dict assignment `d[k] = v`: update an existing key in place,
otherwise append (CPython insertion-order semantics). -/
def dinsert {α : Type} (d : List (String × α)) (k : String) (v : α) :
    List (String × α) :=
  if d.any (fun p => p.1 = k) then
    d.map (fun p => if p.1 = k then (k, v) else p)
  else d ++ [(k, v)]

-- Parser -------------------------------------------------------------------

/-- The test `re.match(r"^structure\s+", line, re.IGNORECASE)`. -/
def isStructHeader (l : String) : Bool :=
  prefL "structure".data (lowerL l.data) &&
    (match (lowerL l.data).drop 9 with
     | c :: _ => isWSC c
     | [] => false)

/-- The parser's position in `parse_packmol_file`'s nested loops, as one
explicit mode (the spec's §9 recommends exactly this reformulation of the
mutable-index scan):

* `topGlobal` — inside the global-section loop (lines 406-414);
* `topSkip`   — inside the outer structure loop, between blocks: non-header
  lines are silently skipped by its final `i += 1` (lines 417-419, 468);
* `inStruct`  — inside a `structure` block's body loop (lines 431-466),
  carrying the block built so far;
* `inAtoms`   — inside a nested `atoms` loop (lines 436-444), carrying the
  enclosing block, the atom index tokens, and the nested lines so far.

Each Python loop iteration consumes exactly one filtered line (each loop
either advances `i` itself or breaks so that the enclosing loop's `i += 1`
consumes its delimiter line), so the whole scan is one pass. -/
inductive PMode where
  | topGlobal : PMode
  | topSkip : PMode
  | inStruct : StructBlock → PMode
  | inAtoms : StructBlock → List String → List String → PMode
deriving Repr

/-- At end of input: a still-open `atoms` loop appends its constraint
(line 445 runs after the inner loop exits), and a still-open structure block
is appended (line 467 runs after the body loop exits); no error is raised. -/
def closeMode : PMode → List StructBlock
  | PMode.topGlobal => []
  | PMode.topSkip => []
  | PMode.inStruct cur => [cur]
  | PMode.inAtoms cur atoms nested =>
    [{ cur with constraints :=
        cur.constraints ++ [PCon.atomsC ⟨atoms, nested⟩] }]

/-- A `structure` header line opens a fresh block with `tokens[1]` as its
file; fewer than two tokens raises `ValueError` (lines 419-428).  Returns
the new mode, or the error. -/
def openStruct (l : String) : Except String PMode :=
  match strSplit l with
  | [] => Except.error ("Malformed structure line: \'" ++ l ++ "\'")
  | [_] => Except.error ("Malformed structure line: \'" ++ l ++ "\'")
  | _ :: f :: _ => Except.ok (PMode.inStruct ⟨f, [], [], []⟩)

/-- The line scan of `parse_packmol_file` (lines 404-468) over the filtered
lines: `g` is `config["global"]`, `ss` is `config["structures"]`.  Each
branch is the corresponding dispatch of the Python loops:

* global lines: key = first token, rest of tokens = value (412-413);
* the first line matching `^structure\\s+` (case-insensitive) ends the
  global section and every such line at top level opens a block (408, 419);
* in a block, a line equal (lowercased) to `end structure` closes it (433),
  a line whose lowercase starts with `atoms` opens the nested atoms loop
  with the line's remaining tokens (436-437), an `inside`/`outside` first
  token with at least two tokens becomes a simple constraint (451-458) and
  with fewer goes to `others` (459-460), any other line is a property
  assignment (461-463);
* in an atoms loop, a line equal (lowercased) to `end atoms` closes it
  (441), anything else is kept verbatim (443). -/
def parseLines (g : List (String × List String)) (ss : List StructBlock) :
    PMode → List String → Except String Config
  | mode, [] => Except.ok ⟨g, ss ++ closeMode mode⟩
  | PMode.topGlobal, l :: ls =>
    if isStructHeader l then
      match openStruct l with
      | Except.error e => Except.error e
      | Except.ok m => parseLines g ss m ls
    else
      match strSplit l with
      | [] => parseLines g ss PMode.topGlobal ls
      | k :: ts => parseLines (dinsert g k ts) ss PMode.topGlobal ls
  | PMode.topSkip, l :: ls =>
    if isStructHeader l then
      match openStruct l with
      | Except.error e => Except.error e
      | Except.ok m => parseLines g ss m ls
    else parseLines g ss PMode.topSkip ls
  | PMode.inStruct cur, l :: ls =>
    if strLower l = "end structure" then
      parseLines g (ss ++ [cur]) PMode.topSkip ls
    else if strStarts (strLower l) "atoms" then
      parseLines g ss (PMode.inAtoms cur (strSplit l).tail []) ls
    else
      match strSplit l with
      | [] =>
        parseLines g ss
          (PMode.inStruct { cur with others := cur.others ++ [l] }) ls
      | k :: ts =>
        if strLower k = "inside" ∨ strLower k = "outside" then
          match ts with
          | [] =>
            parseLines g ss
              (PMode.inStruct { cur with others := cur.others ++ [l] }) ls
          | t1 :: trest =>
            parseLines g ss
              (PMode.inStruct { cur with constraints :=
                cur.constraints ++ [PCon.simpleC ⟨k, t1, trest⟩] }) ls
        else
          parseLines g ss
            (PMode.inStruct { cur with properties := dinsert cur.properties k ts })
            ls
  | PMode.inAtoms cur atoms nested, l :: ls =>
    if strLower l = "end atoms" then
      parseLines g ss
        (PMode.inStruct { cur with constraints :=
          cur.constraints ++ [PCon.atomsC ⟨atoms, nested⟩] }) ls
    else parseLines g ss (PMode.inAtoms cur atoms (nested ++ [l])) ls

/-- The comment/blank filter of `parse_packmol_file` (line 402). -/
def cleanLines (lines : List String) : List String :=
  (lines.map strTrim).filter (fun l => l ≠ "" && !strStarts l "#")

/-- `PackmolTool.parse_packmol_file`, on the list of raw lines of the file. -/
def parse_packmol_file (lines : List String) : Except String Config :=
  parseLines [] [] PMode.topGlobal (cleanLines lines)

/-- `parse_packmol_file` on the raw text of the file. -/
def parsePackmolText (text : String) : Except String Config :=
  parse_packmol_file (strLines text)

-- Generator ----------------------------------------------------------------

/-- The lines `generate_packmol_file` writes for one constraint
(lines 497-511). -/
def genConstraint : PCon → List String
  | PCon.atomsC d =>
      ("  atoms " ++ joinSp d.atoms)
        :: d.constraints.map (fun n => "    " ++ n)
        ++ ["  end atoms"]
  | PCon.simpleC c =>
      ["  " ++ c.keyword ++ " " ++ c.block ++ " " ++ joinSp c.params]

/-- The lines `generate_packmol_file` writes for one structure block
(lines 491-515). -/
def genStruct (s : StructBlock) : List String :=
  ("structure " ++ s.structure_file)
    :: (s.properties.map (fun p => "  " ++ p.1 ++ " " ++ joinSp p.2))
    ++ (s.constraints.map genConstraint).flatten
    ++ (s.others.map (fun o => "  " ++ o))
    ++ ["end structure", ""]

/-- `PackmolTool.generate_packmol_file`, as the list of lines written: global
options in stored order, a blank separator, then each structure block. -/
def generate_packmol_file (c : Config) : List String :=
  (c.globalOpts.map (fun p => p.1 ++ " " ++ joinSp p.2))
    ++ [""]
    ++ (c.structures.map genStruct).flatten

-- Deep-merge updater (update_dict) -----------------------------------------

/-- A Python value as `update_dict` sees it: a scalar (string), a list, or a
reference to a dict living on the heap.  Dicts are heap cells so that the
in-place mutation of `update_dict` (and its aliasing) is observable. -/
inductive HVal where
  | str : String → HVal
  | arr : List HVal → HVal
  | ref : Nat → HVal
deriving Repr

/-- A dict object: insertion-ordered key/value pairs. -/
abbrev HDict := List (String × HVal)

/-- The heap: dict objects addressed by index. -/
abbrev Heap := List HDict

/-- The `for key, value in updates.items()` loop of `update_dict`: if the key
is present in `orig` and both values are dicts, recurse (through `upd`, the
deep merge one fuel level down); otherwise assign `orig[key] = value` in
place on the heap. -/
def updateItemsF (upd : Heap → Nat → Nat → Option (Heap × Nat))
    (h : Heap) (a : Nat) : HDict → Option Heap
  | [] => some h
  | (k, v) :: rest =>
    match h.get? a with
    | none => none
    | some origD =>
      match origD.lookup k, v with
      | some (HVal.ref a2), HVal.ref b2 =>
        match upd h a2 b2 with
        | none => none
        | some (h', _) => updateItemsF upd h' a rest
      | _, _ => updateItemsF upd (h.set a (dinsert origD k v)) a rest

/-- `PackmolTool.update_dict(orig, updates)` (lines 521-537) on the heap
model: `a` is the address of `orig`, `b` of `updates`.  Returns the new heap
and the address the Python function returns (`return orig`).  `fuel` bounds
the nesting depth (Python would recurse forever on cyclic dicts too). -/
def update_dict : Nat → Heap → Nat → Nat → Option (Heap × Nat)
  | 0, _, _, _ => none
  | Nat.succ fuel, h, a, b =>
    match h.get? b with
    | none => none
    | some updD =>
      match updateItemsF (update_dict fuel) h a updD with
      | none => none
      | some h' => some (h', a)

-- Staging and command construction ------------------------------------------

/-- The operating-system facts `prepare_inputs`, `build_command` and
`process_output` consult: which paths are regular files, file sizes,
`os.path.abspath`, and the current working directory. -/
structure OSEnv where
  isfile : String → Bool
  getsize : String → Nat
  abspath : String → String
  cwd : String

/-- `os.path.basename`: the part after the last `/`. -/
def basenameStr (p : String) : String :=
  ⟨(p.data.reverse.takeWhile (fun c => c ≠ '/')).reverse⟩

/-- `os.path.dirname`: the part before the last `/` (empty when no `/`). -/
def dirnameStr (p : String) : String :=
  if p.data.any (fun c => c = '/') then
    ⟨((p.data.reverse.dropWhile (fun c => c ≠ '/')).tail).reverse⟩
  else ""

/-- `os.path.join` for the two-argument uses in `packmol.py`. -/
def joinPath (d f : String) : String :=
  if strStarts f "/" then f
  else if d = "" then f
  else if d.data.getLast? = some '/' then d ++ f
  else d ++ "/" ++ f

/-- `os.path.isabs`. -/
def isAbs (p : String) : Bool := strStarts p "/"

/-- The search-directory list of `prepare_inputs` (lines 148-153): the
current directory, then the directory of the staged input file when its
absolute path differs from the current directory's. -/
def searchDirsOf (env : OSEnv) (inputFileDir : Option String) : List String :=
  env.cwd :: (match inputFileDir with
    | some d =>
      if d ≠ "" ∧ env.abspath d ≠ env.abspath env.cwd then [d] else []
    | none => [])

/-- `input_file_dir` as `prepare_inputs` computes it (line 144): the dirname
of the workspace copy `os.path.join(workspace_path, basename(input_file))`
of the input file — not of the source input file itself. -/
def input_file_dir_of (workspace : String) : Option String → Option String
  | none => none
  | some inputFile => some (dirnameStr (joinPath workspace (basenameStr inputFile)))

/-- The candidate locations tried for one structure file (lines 162-168):
the path as given, then the basename inside each search directory. -/
def searchLocations (dirs : List String) (sf : String) : List String :=
  sf :: dirs.map (fun d => joinPath d (basenameStr sf))

/-- The location loop (lines 170-175): first existing candidate wins. -/
def findStructFile (env : OSEnv) (dirs : List String) (sf : String) :
    Option String :=
  (searchLocations dirs sf).find? env.isfile

/-- The structure-file loop of `prepare_inputs` (lines 157-190): returns the
updated structure blocks (found files rewritten to their basename), the
workspace copies made, and the accumulated `missing_files` list. -/
def stageStructs (env : OSEnv) (dirs : List String) (workspace : String) :
    List StructBlock → List StructBlock × List String × List String
  | [] => ([], [], [])
  | s :: ss =>
    let rest := stageStructs env dirs workspace ss
    if s.structure_file = "" then (s :: rest.1, rest.2.1, rest.2.2)
    else
      match findStructFile env dirs s.structure_file with
      | some found =>
        ({ s with structure_file := basenameStr found } :: rest.1,
         joinPath workspace (basenameStr found) :: rest.2.1,
         rest.2.2)
      | none => (s :: rest.1, rest.2.1, s.structure_file :: rest.2.2)

/-- The staging phase of `PackmolTool.prepare_inputs` (lines 142-210) for an
already-resolved configuration: locate and copy every referenced structure
file, rewriting found ones to basenames and collecting missing ones into
`missing_structure_files` without failing. -/
def prepare_inputs_staging (env : OSEnv) (workspace : String)
    (inputFile : Option String) (cfg : Config) :
    Config × List String × List String :=
  let dirs := searchDirsOf env (input_file_dir_of workspace inputFile)
  let r := stageStructs env dirs workspace cfg.structures
  (⟨cfg.globalOpts, r.1⟩, r.2.1, r.2.2)

def joinCommaSp (l : List String) : String :=
  ⟨joinSepL (", ".data) (l.map String.data)⟩

/-- `PackmolTool.build_command` (lines 212-268), missing-file check and
command list: fails when `missing_structure_files` is non-empty, naming
every missing file in the message. -/
def build_command (missing : List String) (executable : String) :
    Except String (List String) :=
  if missing.isEmpty then Except.ok [executable]
  else
    Except.error
      ("Cannot run Packmol: Missing structure files: " ++ joinCommaSp missing)

/-- Modelled from the spec: the `execute` pipeline of `BaseExternalTool`
(§4.4 of the spec; `external_tools/base.py` is not among the sources):
after staging, `build_command` runs, and only on its success is the
subprocess launched.  The boolean records whether a launch happened. -/
def executeAfterStaging (missing : List String) (executable : String)
    (launch : List String → Int × String × String) :
    Except String (Int × String × String) × Bool :=
  match build_command missing executable with
  | Except.error e => (Except.error e, false)
  | Except.ok cmd => (Except.ok (launch cmd), true)

-- Output processing ---------------------------------------------------------

/-- The result dict built by `process_output` (lines 359-368), minus the
echoed config. -/
structure RunResult where
  return_code : Int
  stdout : String
  stderr : String
  output_files : List String
  output_file : Option String
  timed_out : Bool
deriving DecidableEq, Repr

/-- The timeout test of `process_output` (line 294). -/
def timeoutMarker (stderr : String) : Bool :=
  strHas stderr "TimeoutExpired" || strHas (strLower stderr) "timed out"

/-- The `output` global option joined into the expected output name
(lines 314-318): first global key lowercasing to `output`. -/
def expectedOutputOf (cfg : Config) : Option String :=
  (cfg.globalOpts.find? (fun p => strLower p.1 == "output")).map
    (fun p => joinSp p.2)

/-- `line.split(":", 1)[1]` for a line known to contain a colon. -/
def afterFirstColon (l : String) : String :=
  ⟨(l.data.dropWhile (fun c => c ≠ ':')).tail⟩

/-- `PackmolTool.process_output` (lines 270-378): classify the run as
timeout / failure / success, locate the output file (config-declared
`output` first, then the `Output file:` stdout marker), and downgrade an
empty output file on a non-timeout, non-continue path. -/
def process_output (env : OSEnv) (workspace : String) (cfg : Config)
    (rc : Int) (stdout stderr : String) (continueOnError : Bool) :
    Except String RunResult :=
  let is_timeout : Bool := decide (rc ≠ 0) && timeoutMarker stderr
  if rc ≠ 0 ∧ timeoutMarker stderr = false ∧ continueOnError = false then
    Except.error "Packmol failed with return code "
  else
    let fromCfg : Option String :=
      match expectedOutputOf cfg with
      | none => none
      | some eo =>
        ([joinPath workspace eo] ++ (if isAbs eo then [eo] else [])).find?
          env.isfile
    let output_file : Option String :=
      match fromCfg with
      | some p => some p
      | none =>
        match (strLines stdout).find? (fun l => strHas l "Output file:") with
        | none => none
        | some line =>
          let f := strTrim (afterFirstColon line)
          some (if isAbs f then f else joinPath workspace f)
    let output_files : List String :=
      match output_file with
      | some f =>
        if env.isfile f then
          if env.getsize f > 0 then [f]
          else if !is_timeout && !continueOnError then [] else [f]
        else []
      | none => []
    Except.ok ⟨rc, stdout, stderr, output_files, output_file, is_timeout⟩

-- Helper lemmas -------------------------------------------------------------

theorem sdata_append (a b : String) : (a ++ b).data = a.data ++ b.data := by
  cases a; cases b; rfl

theorem lookup_cons {α : Type} (k : String) (p : String × α)
    (rest : List (String × α)) :
    List.lookup k (p :: rest) =
      if k == p.1 then some p.2 else List.lookup k rest := by
  rcases p with ⟨a, b⟩
  cases h : k == a <;> simp [List.lookup, h]

theorem lookup_dinsert {α : Type} (d : List (String × α)) (k : String) (v : α) :
    List.lookup k (dinsert d k v) = some v := by
  unfold dinsert
  split
  · rename_i hany
    induction d with
    | nil => simp at hany
    | cons q rest ih =>
      simp only [List.any_cons, Bool.or_eq_true, decide_eq_true_eq] at hany
      by_cases hq : q.1 = k
      · rw [List.map_cons, if_pos hq, lookup_cons]
        simp
      · rw [List.map_cons, if_neg hq, lookup_cons]
        have hk : (k == q.1) = false := by
          simp only [beq_eq_false_iff_ne, ne_eq]
          exact fun hkq => hq hkq.symm
        rw [hk]
        simp only [Bool.false_eq_true, if_false]
        exact ih (hany.resolve_left hq)
  · induction d with
    | nil => simp [List.lookup]
    | cons q rest ih =>
      rename_i hany
      simp only [List.any_cons, Bool.or_eq_true, decide_eq_true_eq,
        not_or] at hany
      rw [List.cons_append, lookup_cons]
      have hk : (k == q.1) = false := by
        simp only [beq_eq_false_iff_ne, ne_eq]
        exact fun hkq => hany.1 hkq.symm
      rw [hk]
      simp only [Bool.false_eq_true, if_false]
      exact ih (by simpa using hany.2)

theorem prefL_append_self (p r : List Char) : prefL p (p ++ r) = true := by
  induction p with
  | nil => rfl
  | cons c cs ih => simp [prefL, ih]

theorem infL_of_append (p r : List Char) : infL p (p ++ r) = true := by
  cases p with
  | nil => cases r <;> simp [infL, prefL, List.isEmpty]
  | cons c cs =>
    simp only [List.cons_append, infL, Bool.or_eq_true]
    exact Or.inl (prefL_append_self (c :: cs) r)

theorem infL_cons (p l : List Char) (c : Char) (h : infL p l = true) :
    infL p (c :: l) = true := by
  simp only [infL, Bool.or_eq_true]
  exact Or.inr h

theorem infL_append_left (p pre l : List Char) (h : infL p l = true) :
    infL p (pre ++ l) = true := by
  induction pre with
  | nil => exact h
  | cons c cs ih => exact infL_cons _ _ _ ih

theorem infL_mem_joinSep (sep : List Char) (f : List Char)
    (ts : List (List Char)) (hf : f ∈ ts) :
    infL f (joinSepL sep ts) = true := by
  induction ts with
  | nil => simp at hf
  | cons t rest ih =>
    rcases List.mem_cons.mp hf with h1 | h1
    · subst h1
      cases rest with
      | nil => simpa [joinSepL] using infL_of_append f []
      | cons t' ts' =>
        simp only [joinSepL]
        rw [List.append_assoc]
        exact infL_of_append f _
    · cases rest with
      | nil => simp at h1
      | cons t' ts' =>
        simp only [joinSepL]
        exact infL_append_left _ (t ++ sep) _ (ih h1)

/-- Every member of `missing` occurs in the `build_command` error message. -/
theorem strHas_joinCommaSp (pre : String) (l : List String) (f : String)
    (hf : f ∈ l) : strHas (pre ++ joinCommaSp l) f = true := by
  unfold strHas joinCommaSp
  rw [sdata_append]
  refine infL_append_left _ _ _ ?_
  exact infL_mem_joinSep _ _ _ (List.mem_map_of_mem String.data hf)

-- update_dict lemmas ---------------------------------------------------------

theorem updateItemsF_length
    (upd : Heap → Nat → Nat → Option (Heap × Nat))
    (hupd : ∀ h a b out, upd h a b = some out → out.1.length = h.length) :
    ∀ (d : HDict) (h : Heap) (a : Nat) (h' : Heap),
      updateItemsF upd h a d = some h' → h'.length = h.length := by
  intro d
  induction d with
  | nil =>
    intro h a h' hu
    simp only [updateItemsF, Option.some.injEq] at hu
    rw [hu]
  | cons kv rest ih =>
    intro h a h' hu
    rcases kv with ⟨k, v⟩
    rw [updateItemsF] at hu
    split at hu
    · exact absurd hu (by simp)
    · split at hu
      · split at hu
        · exact absurd hu (by simp)
        · rename_i h2 r2 hud
          have l1 := hupd _ _ _ _ hud
          have l2 := ih _ _ _ hu
          simp only at l1
          omega
      · have := ih _ _ _ hu
        rwa [List.length_set] at this

theorem update_dict_length :
    ∀ (fuel : Nat) (h : Heap) (a b : Nat) (out : Heap × Nat),
      update_dict fuel h a b = some out → out.1.length = h.length := by
  intro fuel
  induction fuel with
  | zero =>
    intro h a b out hu
    simp [update_dict] at hu
  | succ fuel ihf =>
    intro h a b out hu
    rw [update_dict] at hu
    split at hu
    · exact absurd hu (by simp)
    · split at hu
      · exact absurd hu (by simp)
      · rename_i hin
        simp only [Option.some.injEq] at hu
        have := updateItemsF_length (update_dict fuel) ihf _ _ _ _ hin
        rw [← hu]
        simpa using this

-- Claim theorems: deep-merge updater ----------------------------------------

/-- C8 (confirmed): merging an empty update specification is the identity:
`update_dict(c, {})` returns the heap unchanged and the very mapping `c`. -/
theorem update_dict_empty_identity (fuel : Nat) (h : Heap) (a b : Nat)
    (hb : h.get? b = some []) :
    update_dict (fuel + 1) h a b = some (h, a) := by
  rw [update_dict, hb]
  rfl

/-- C8 witness: a concrete configuration dict merged with `{}`. -/
theorem update_dict_empty_identity_witness :
    update_dict 2 [[("tolerance", HVal.arr [HVal.str "2.0"])], []] 0 1 =
      some ([[("tolerance", HVal.arr [HVal.str "2.0"])], []], 0) :=
  update_dict_empty_identity 1 _ 0 1 rfl

/-- C10 (confirmed): `update_dict` mutates its base in place: whenever it
returns, the returned mapping is the very address of the base argument, and
the heap has the same length (no copy of the configuration is allocated);
the updates are written through that address. -/
theorem update_dict_returns_base_address (fuel : Nat) (h h' : Heap)
    (a b r : Nat) (hu : update_dict fuel h a b = some (h', r)) :
    r = a ∧ h'.length = h.length := by
  constructor
  · cases fuel with
    | zero => simp [update_dict] at hu
    | succ fuel =>
      rw [update_dict] at hu
      split at hu
      · exact absurd hu (by simp)
      · split at hu
        · exact absurd hu (by simp)
        · simp only [Option.some.injEq, Prod.mk.injEq] at hu
          exact hu.2.symm
  · exact update_dict_length fuel h a b (h', r) hu

/-- C10 witness: a concrete merge that overwrites the base cell in place —
same address returned, same heap length, base cell visibly changed. -/
theorem update_dict_returns_base_address_witness :
    (0 = 0 ∧
      ([[("k", HVal.str "new")], [("k", HVal.str "new")]] : Heap).length =
        ([[("k", HVal.str "old")], [("k", HVal.str "new")]] : Heap).length) :=
  update_dict_returns_base_address 2
    [[("k", HVal.str "old")], [("k", HVal.str "new")]]
    [[("k", HVal.str "new")], [("k", HVal.str "new")]] 0 1 0 rfl

def cexHeap : Heap :=
  [ [("structures", HVal.arr [HVal.ref 1])],
    [("structure_file", HVal.str "a.pdb"), ("properties", HVal.ref 4)],
    [("structures", HVal.arr [HVal.ref 3])],
    [("properties", HVal.ref 5)],
    [("number", HVal.arr [HVal.str "10"])],
    [("number", HVal.arr [HVal.str "20"])] ]

/-- C3 counterexample: base config (address 0) has one structure block
(address 1) carrying `structure_file = "a.pdb"`; the update spec
(address 2) has one structure entry (address 3) mentioning only
`properties`.  After `update_dict`, the base's `structures` is the update's
list wholesale: its block is address 3, which has no `structure_file` — the
existing block's unmentioned fields are NOT retained, so no positional
index-by-index merge happens. -/
theorem update_dict_structures_not_positional :
    update_dict 10 cexHeap 0 2 =
      some (cexHeap.set 0 [("structures", HVal.arr [HVal.ref 3])], 0) ∧
    (cexHeap.set 0 [("structures", HVal.arr [HVal.ref 3])]).get? 0 =
      some [("structures", HVal.arr [HVal.ref 3])] ∧
    List.lookup "structure_file" [("properties", HVal.ref 5)] = none ∧
    cexHeap.get? 0 = some [("structures", HVal.arr [HVal.ref 1])] ∧
    List.lookup "structure_file"
      [("structure_file", HVal.str "a.pdb"), ("properties", HVal.ref 4)] =
      some (HVal.str "a.pdb") :=
  ⟨rfl, rfl, rfl, rfl, rfl⟩

/-- C3 (corrected): when an update specification contains a `structures`
key, its value (a list, hence not a dict) replaces the existing structures
sequence wholesale — no positional index-by-index merge; fields of existing
blocks are retained only if resupplied by the update. -/
theorem update_dict_structures_wholesale (fuel : Nat) (h : Heap) (a b : Nat)
    (origD : HDict) (us : List HVal)
    (ha : h.get? a = some origD)
    (hb : h.get? b = some [("structures", HVal.arr us)]) :
    update_dict (fuel + 1) h a b =
      some (h.set a (dinsert origD "structures" (HVal.arr us)), a) ∧
    List.lookup "structures" (dinsert origD "structures" (HVal.arr us)) =
      some (HVal.arr us) := by
  constructor
  · rw [update_dict, hb]
    have ha' : h[a]? = some origD := by simpa using ha
    have hstep : updateItemsF (update_dict fuel) h a
        [("structures", HVal.arr us)] =
        some (h.set a (dinsert origD "structures" (HVal.arr us))) := by
      cases holu : List.lookup "structures" origD with
      | none => simp [updateItemsF, ha, ha', holu]
      | some x => cases x <;> simp [updateItemsF, ha, ha', holu]
    simp [hstep]
  · exact lookup_dinsert origD "structures" (HVal.arr us)

/-- C3 witness: the counterexample heap again — the merged config's
`structures` is exactly the update's list. -/
theorem update_dict_structures_wholesale_witness :
    update_dict 10 cexHeap 0 2 =
      some (cexHeap.set 0
        (dinsert [("structures", HVal.arr [HVal.ref 1])] "structures"
          (HVal.arr [HVal.ref 3])), 0) ∧
    List.lookup "structures"
      (dinsert [("structures", HVal.arr [HVal.ref 1])] "structures"
        (HVal.arr [HVal.ref 3])) = some (HVal.arr [HVal.ref 3]) :=
  update_dict_structures_wholesale 9 cexHeap 0 2
    [("structures", HVal.arr [HVal.ref 1])] [HVal.ref 3] rfl rfl

-- Claim theorems: parser, concrete behaviour --------------------------------

/-- C2 (code_bug): parsing text whose only content is a bare `structure`
line does NOT raise `MalformedInputError`: after `str.strip`, the line no
longer matches `^structure\s+` (the regex requires whitespace after the
word), so it is consumed as a global option `structure ↦ []` and a full
`Configuration` is returned.  The `len(tokens) < 2` raise at line 422 is
unreachable for stripped lines. -/
theorem parse_packmol_bare_structure_is_global_key :
    parsePackmolText "structure\n" =
      Except.ok ⟨[("structure", [])], []⟩ := rfl

/-- C7 (confirmed): the end-to-end example input parses to exactly the
global options and the single structure block the spec states. -/
theorem end_to_end_parse_example :
    parsePackmolText
      ("tolerance 2.0\nfiletype pdb\noutput test_output.pdb\n\n" ++
       "structure molecule.pdb\n  number 10\n" ++
       "  inside box 0. 0. 0. 30. 30. 30.\nend structure\n") =
      Except.ok
        ⟨[("tolerance", ["2.0"]), ("filetype", ["pdb"]),
          ("output", ["test_output.pdb"])],
         [⟨"molecule.pdb", [("number", ["10"])],
           [PCon.simpleC ⟨"inside", "box",
             ["0.", "0.", "0.", "30.", "30.", "30."]⟩], []⟩]⟩ := rfl

theorem parseLines_inAtoms_all (g : List (String × List String))
    (ss : List StructBlock) (cur : StructBlock)
    (atoms nested rest : List String)
    (h : ∀ x ∈ rest, strLower x ≠ "end atoms") :
    parseLines g ss (PMode.inAtoms cur atoms nested) rest =
      Except.ok ⟨g, ss ++ [{ cur with constraints :=
        cur.constraints ++ [PCon.atomsC ⟨atoms, nested ++ rest⟩] }]⟩ := by
  induction rest generalizing nested with
  | nil => simp [parseLines, closeMode]
  | cons l ls ih =>
    rw [parseLines, if_neg (h l (List.mem_cons_self l ls))]
    rw [ih (nested ++ [l]) (fun x hx => h x (List.mem_cons_of_mem l hx))]
    simp

/-- C9 (confirmed): inside a structure block, a line whose lowercased text
starts with `atoms` — also when `atoms` is only a prefix of a longer first
token — opens a nested atoms block whose indices are the line's remaining
tokens; when no later line lowercases to `end atoms`, every remaining line
(`end structure` included) is collected verbatim as nested lines, and the
block is closed at end of input. -/
theorem atoms_prefix_opens_block_consuming_rest
    (g : List (String × List String)) (ss : List StructBlock)
    (cur : StructBlock) (l : String) (rest : List String)
    (hat : strStarts (strLower l) "atoms" = true)
    (hnoend : ∀ x ∈ rest, strLower x ≠ "end atoms") :
    parseLines g ss (PMode.inStruct cur) (l :: rest) =
      Except.ok ⟨g, ss ++ [{ cur with constraints :=
        cur.constraints ++ [PCon.atomsC ⟨(strSplit l).tail, rest⟩] }]⟩ := by
  have hne : ¬ strLower l = "end structure" := by
    intro h
    rw [h] at hat
    exact absurd hat (by decide)
  rw [parseLines, if_neg hne, if_pos hat]
  rw [parseLines_inAtoms_all g ss cur _ [] rest hnoend]
  simp

/-- C9 witness: `atomscale 5` (where `atoms` is a strict prefix of the
token) inside a block with no `end atoms` line swallows the
`end structure` line verbatim. -/
theorem atoms_prefix_opens_block_consuming_rest_witness :
    parseLines [] [] (PMode.inStruct ⟨"f.pdb", [], [], []⟩)
      ["atomscale 5", "end structure", "x y"] =
      Except.ok ⟨[], [⟨"f.pdb", [],
        [PCon.atomsC ⟨["5"], ["end structure", "x y"]⟩], []⟩]⟩ :=
  atoms_prefix_opens_block_consuming_rest [] [] ⟨"f.pdb", [], [], []⟩
    "atomscale 5" ["end structure", "x y"] (by decide) (by decide)

-- Claim theorems: staging, command construction, launch ----------------------

theorem stageStructs_all_missing (env : OSEnv) (dirs : List String)
    (workspace : String) (structs : List StructBlock)
    (h : ∀ s ∈ structs, s.structure_file ≠ "" ∧
      findStructFile env dirs s.structure_file = none) :
    stageStructs env dirs workspace structs =
      (structs, [], structs.map (fun s => s.structure_file)) := by
  induction structs with
  | nil => rfl
  | cons s ss ih =>
    have hs := h s (List.mem_cons_self s ss)
    rw [stageStructs, ih (fun x hx => h x (List.mem_cons_of_mem s hx))]
    rw [if_neg hs.1, hs.2]
    rfl

/-- C4 (confirmed): when every structure file of the configuration is
locatable nowhere in the search path, staging completes (it is a total
function) recording exactly those files, in order, in
`missing_structure_files`; `build_command` then fails with a message naming
every missing file, and the execute pipeline launches no subprocess. -/
theorem missing_structure_files_aggregate_and_block_launch
    (env : OSEnv) (workspace exe : String) (inputFile : Option String)
    (cfg : Config) (launch : List String → Int × String × String)
    (hne : cfg.structures ≠ [])
    (hmiss : ∀ s ∈ cfg.structures, s.structure_file ≠ "" ∧
      ∀ loc ∈ searchLocations
        (searchDirsOf env (input_file_dir_of workspace inputFile))
        s.structure_file, env.isfile loc = false) :
    (prepare_inputs_staging env workspace inputFile cfg).2.2 =
      cfg.structures.map (fun s => s.structure_file) ∧
    build_command (prepare_inputs_staging env workspace inputFile cfg).2.2
        exe =
      Except.error ("Cannot run Packmol: Missing structure files: " ++
        joinCommaSp (cfg.structures.map (fun s => s.structure_file))) ∧
    (∀ s ∈ cfg.structures,
      strHas ("Cannot run Packmol: Missing structure files: " ++
        joinCommaSp (cfg.structures.map (fun s => s.structure_file)))
        s.structure_file = true) ∧
    (executeAfterStaging
        (prepare_inputs_staging env workspace inputFile cfg).2.2 exe
        launch).2 = false := by
  have hfind : ∀ s ∈ cfg.structures, s.structure_file ≠ "" ∧
      findStructFile env
        (searchDirsOf env (input_file_dir_of workspace inputFile))
        s.structure_file = none := by
    intro s hs
    refine ⟨(hmiss s hs).1, ?_⟩
    rw [findStructFile, List.find?_eq_none]
    intro x hx
    rw [(hmiss s hs).2 x hx]
    simp
  have hstage :
      (prepare_inputs_staging env workspace inputFile cfg).2.2 =
        cfg.structures.map (fun s => s.structure_file) := by
    simp only [prepare_inputs_staging]
    rw [stageStructs_all_missing env _ workspace cfg.structures hfind]
  have hnonempty :
      (cfg.structures.map (fun s => s.structure_file)).isEmpty = false := by
    cases hc : cfg.structures with
    | nil => exact absurd hc hne
    | cons a l => simp [hc]
  have hbuild : build_command
      (prepare_inputs_staging env workspace inputFile cfg).2.2 exe =
      Except.error ("Cannot run Packmol: Missing structure files: " ++
        joinCommaSp (cfg.structures.map (fun s => s.structure_file))) := by
    rw [hstage, build_command, hnonempty]
    simp
  refine ⟨hstage, hbuild, ?_, ?_⟩
  · intro s hs
    exact strHas_joinCommaSp _ _ _
      (List.mem_map_of_mem (fun s => s.structure_file) hs)
  · rw [executeAfterStaging, hbuild]

/-- C4 witness: two nonexistent structure files — staging reports exactly
the two, command construction names both and no launch happens. -/
theorem missing_structure_files_aggregate_and_block_launch_witness :
    ((prepare_inputs_staging ⟨fun _ => false, fun _ => 0, fun s => s, "cwd"⟩
        "ws" none ⟨[], [⟨"a.pdb", [], [], []⟩, ⟨"b.pdb", [], [], []⟩]⟩).2.2 =
      (⟨[], [⟨"a.pdb", [], [], []⟩, ⟨"b.pdb", [], [], []⟩]⟩ :
        Config).structures.map (fun s => s.structure_file) ∧
    build_command
      (prepare_inputs_staging ⟨fun _ => false, fun _ => 0, fun s => s, "cwd"⟩
        "ws" none ⟨[], [⟨"a.pdb", [], [], []⟩, ⟨"b.pdb", [], [], []⟩]⟩).2.2
      "packmol" =
      Except.error ("Cannot run Packmol: Missing structure files: " ++
        joinCommaSp ((⟨[], [⟨"a.pdb", [], [], []⟩, ⟨"b.pdb", [], [], []⟩]⟩ :
          Config).structures.map (fun s => s.structure_file))) ∧
    (∀ s ∈ (⟨[], [⟨"a.pdb", [], [], []⟩, ⟨"b.pdb", [], [], []⟩]⟩ :
        Config).structures,
      strHas ("Cannot run Packmol: Missing structure files: " ++
        joinCommaSp ((⟨[], [⟨"a.pdb", [], [], []⟩, ⟨"b.pdb", [], [], []⟩]⟩ :
          Config).structures.map (fun s => s.structure_file)))
        s.structure_file = true) ∧
    (executeAfterStaging
      (prepare_inputs_staging ⟨fun _ => false, fun _ => 0, fun s => s, "cwd"⟩
        "ws" none ⟨[], [⟨"a.pdb", [], [], []⟩, ⟨"b.pdb", [], [], []⟩]⟩).2.2
      "packmol" (fun _ => (0, "", ""))).2 = false) :=
  missing_structure_files_aggregate_and_block_launch
    ⟨fun _ => false, fun _ => 0, fun s => s, "cwd"⟩ "ws" "packmol" none
    ⟨[], [⟨"a.pdb", [], [], []⟩, ⟨"b.pdb", [], [], []⟩]⟩
    (fun _ => (0, "", "")) (by simp) (by decide)

/-- The environment of the C5 scenario: the geometry file `m.pdb` exists
only in the source input file's directory `srcdir`; the current directory
is `cwd` and the workspace is `ws`. -/
def srcOnlyEnv : OSEnv :=
  ⟨fun s => s == "srcdir/m.pdb", fun _ => 0, fun s => s, "cwd"⟩

def srcOnlyCfg : Config := ⟨[], [⟨"m.pdb", [], [], []⟩]⟩

/-- C5 (code_bug): the third search location is NOT the source input file's
directory: `input_file_dir` is computed from the workspace copy
`os.path.join(workspace_path, basename(input_file))`, so the search path
is `[as-given, cwd, workspace]`.  A bare filename present only in the
source input file's directory (`srcdir/m.pdb` here) is therefore NOT
located: staging reports it missing even though the file exists. -/
theorem structure_search_uses_workspace_not_source_dir :
    searchDirsOf srcOnlyEnv (input_file_dir_of "ws" (some "srcdir/in.inp")) =
      ["cwd", "ws"] ∧
    searchLocations ["cwd", "ws"] "m.pdb" =
      ["m.pdb", "cwd/m.pdb", "ws/m.pdb"] ∧
    srcOnlyEnv.isfile "srcdir/m.pdb" = true ∧
    prepare_inputs_staging srcOnlyEnv "ws" (some "srcdir/in.inp") srcOnlyCfg =
      (srcOnlyCfg, [], ["m.pdb"]) :=
  ⟨rfl, rfl, rfl, rfl⟩

-- Claim theorems: output processing -----------------------------------------

/-- C6 (confirmed): a run whose process timed out (non-zero return code and
the `TimeoutExpired` marker on stderr) and whose configuration-declared
output file exists in the workspace with non-zero size returns a result —
no exception — with `timed_out = true` and a non-empty `output_files`. -/
theorem timeout_with_partial_output_reported
    (env : OSEnv) (workspace : String) (cfg : Config) (rc : Int)
    (stdout stderr : String) (continueOnError : Bool) (eo : String)
    (hrc : rc ≠ 0)
    (hmark : strHas stderr "TimeoutExpired" = true)
    (heo : expectedOutputOf cfg = some eo)
    (hfile : env.isfile (joinPath workspace eo) = true)
    (hsize : 0 < env.getsize (joinPath workspace eo)) :
    ∃ r, process_output env workspace cfg rc stdout stderr continueOnError =
        Except.ok r ∧
      r.timed_out = true ∧ r.output_files ≠ [] := by
  have hm : timeoutMarker stderr = true := by
    rw [timeoutMarker, hmark]
    rfl
  refine ⟨⟨rc, stdout, stderr, [joinPath workspace eo],
    some (joinPath workspace eo), true⟩, ?_, rfl, by simp⟩
  rw [process_output]
  rw [if_neg (by intro hc; rw [hm] at hc; exact absurd hc.2.1 (by simp))]
  have hfound : ([joinPath workspace eo] ++
      (if isAbs eo then [eo] else [])).find? env.isfile =
      some (joinPath workspace eo) := by
    cases hab : isAbs eo <;> simp [List.find?, hfile]
  have hto : (decide (rc ≠ 0) && timeoutMarker stderr) = true := by
    rw [hm, decide_eq_true hrc]
    rfl
  simp only [heo, hfound, hfile, hto, if_pos hsize, ite_true]

/-- C6 witness: a concrete timed-out run with a 5-byte declared output file
present in the workspace. -/
theorem timeout_with_partial_output_reported_witness :
    ∃ r, process_output
        ⟨fun s => s == "ws/o.pdb", fun s => if s == "ws/o.pdb" then 5 else 0,
          fun s => s, "cwd"⟩
        "ws" ⟨[("output", ["o.pdb"])], []⟩ 1 ""
        "subprocess.TimeoutExpired: packmol" false =
        Except.ok r ∧
      r.timed_out = true ∧ r.output_files ≠ [] :=
  timeout_with_partial_output_reported
    ⟨fun s => s == "ws/o.pdb", fun s => if s == "ws/o.pdb" then 5 else 0,
      fun s => s, "cwd"⟩
    "ws" ⟨[("output", ["o.pdb"])], []⟩ 1 ""
    "subprocess.TimeoutExpired: packmol" false "o.pdb"
    (by decide) (by decide) rfl rfl (by decide)

-- Round-trip infrastructure: characters and tokens ---------------------------

/-- A whitespace-free, non-empty chunk of characters: what `str.split()`
produces and `" ".join` expects. -/
def goodTokL (t : List Char) : Bool :=
  !t.isEmpty && t.all (fun c => !isWSC c)

theorem lowerC_ws (c : Char) : isWSC (lowerC c) = isWSC c := by
  unfold lowerC
  split <;> rfl

theorem lowerL_ws_mem (t : List Char) (c : Char) (h : c ∈ lowerL t) :
    ∃ c0 ∈ t, c = lowerC c0 := by
  simp only [lowerL, List.mem_map] at h
  obtain ⟨c0, h0, hc⟩ := h
  exact ⟨c0, h0, hc.symm⟩

theorem goodTokL_lower (t : List Char) (h : goodTokL t = true) :
    goodTokL (lowerL t) = true := by
  simp only [goodTokL, Bool.and_eq_true, List.all_eq_true] at h ⊢
  constructor
  · simpa [lowerL] using h.1
  · intro c hc
    obtain ⟨c0, h0, rfl⟩ := lowerL_ws_mem t c hc
    have := h.2 c0 h0
    simpa [lowerC_ws] using this

theorem lowerL_append (a b : List Char) :
    lowerL (a ++ b) = lowerL a ++ lowerL b := by
  simp [lowerL]

-- splitting --

theorem splitWSAux_nonws (t : List Char) (ht : ∀ c ∈ t, isWSC c = false) :
    ∀ (l acc : List Char),
      splitWSAux (t ++ l) acc = splitWSAux l (t.reverse ++ acc) := by
  induction t with
  | nil => intro l acc; simp
  | cons c cs ih =>
    intro l acc
    rw [List.cons_append, splitWSAux, ht c (List.mem_cons_self c cs)]
    rw [ih (fun x hx => ht x (List.mem_cons_of_mem c hx)) l (c :: acc)]
    simp

theorem splitWSL_all_ws (r : List Char) (h : ∀ c ∈ r, isWSC c = true) :
    splitWSL r = [] := by
  induction r with
  | nil => rfl
  | cons c cs ih =>
    rw [splitWSL, splitWSAux, h c (List.mem_cons_self c cs)]
    simp only [List.isEmpty_nil, if_true]
    exact ih (fun x hx => h x (List.mem_cons_of_mem c hx))

/-- `str.split()` is a left inverse of `" ".join` on good token lists. -/
theorem splitWSL_joinSep (toks : List (List Char))
    (h : ∀ t ∈ toks, goodTokL t = true) :
    splitWSL (joinSepL [' '] toks) = toks := by
  induction toks with
  | nil => rfl
  | cons t rest ih =>
    have hg := h t (List.mem_cons_self t rest)
    simp only [goodTokL, Bool.and_eq_true, List.all_eq_true,
      Bool.not_eq_true'] at hg
    have htne : t ≠ [] := by
      cases t with
      | nil => simp at hg
      | cons a l => simp
    have htw : ∀ c ∈ t, isWSC c = false := hg.2
    cases rest with
    | nil =>
      show splitWSAux (joinSepL [' '] [t]) [] = [t]
      have hje : joinSepL [' '] [t] = t ++ [] := by simp [joinSepL]
      rw [hje, splitWSAux_nonws t htw [] []]
      simp [splitWSAux, List.isEmpty_iff, htne]
    | cons t' ts =>
      show splitWSAux (joinSepL [' '] (t :: t' :: ts)) [] = t :: t' :: ts
      have hj : joinSepL [' '] (t :: t' :: ts) =
          t ++ (' ' :: joinSepL [' '] (t' :: ts)) := by
        simp [joinSepL]
      rw [hj, splitWSAux_nonws t htw _ [], List.append_nil, splitWSAux]
      have hre : t.reverse.isEmpty = false := by
        cases hr : t.reverse with
        | nil => exact absurd (List.reverse_eq_nil_iff.mp hr) htne
        | cons a l => rfl
      simp only [show isWSC ' ' = true from rfl, if_true, hre,
        Bool.false_eq_true, if_false, List.reverse_reverse]
      have ihh := ih (fun x hx => h x (List.mem_cons_of_mem t hx))
      rw [splitWSL] at ihh
      rw [ihh]

theorem splitWSL_tokens_good (l : List Char) :
    ∀ t ∈ splitWSL l, goodTokL t = true := by
  suffices h : ∀ (l acc : List Char), (∀ c ∈ acc, isWSC c = false) →
      ∀ t ∈ splitWSAux l acc,
        t ≠ [] ∧ ∀ c ∈ t, isWSC c = false by
    intro t ht
    have := h l [] (by simp) t ht
    simp only [goodTokL, Bool.and_eq_true, List.all_eq_true,
      Bool.not_eq_true']
    exact ⟨by simpa [List.isEmpty_iff] using this.1, this.2⟩
  intro l
  induction l with
  | nil =>
    intro acc hacc t ht
    rw [splitWSAux] at ht
    split at ht
    · simp at ht
    · rename_i hne
      simp only [List.mem_singleton] at ht
      subst ht
      refine ⟨by simpa [List.isEmpty_iff] using hne, ?_⟩
      intro c hc
      exact hacc c (by simpa using hc)
  | cons c cs ih =>
    intro acc hacc t ht
    rw [splitWSAux] at ht
    split at ht
    · rename_i hcw
      split at ht
      · exact ih [] (by simp) t ht
      · rename_i hne
        rcases List.mem_cons.mp ht with h1 | h1
        · subst h1
          refine ⟨by simpa [List.isEmpty_iff] using hne, ?_⟩
          intro x hx
          exact hacc x (by simpa using hx)
        · exact ih [] (by simp) t h1
    · rename_i hcw
      refine ih (c :: acc) ?_ t ht
      intro x hx
      rcases List.mem_cons.mp hx with h1 | h1
      · subst h1; simpa using hcw
      · exact hacc x h1

-- trimming --

theorem dropWhile_ws_append (ind l : List Char)
    (h : ∀ c ∈ ind, isWSC c = true) :
    (ind ++ l).dropWhile isWSC = l.dropWhile isWSC := by
  induction ind with
  | nil => rfl
  | cons c cs ih =>
    rw [List.cons_append, List.dropWhile_cons,
      h c (List.mem_cons_self c cs)]
    simp only [if_true]
    exact ih (fun x hx => h x (List.mem_cons_of_mem c hx))

theorem dropWhile_ws_all (l : List Char) (h : ∀ c ∈ l, isWSC c = true) :
    l.dropWhile isWSC = [] := by
  have := dropWhile_ws_append l [] h
  simpa using this

theorem dropWhile_cons_nonws (c : Char) (l : List Char)
    (h : isWSC c = false) : (c :: l).dropWhile isWSC = c :: l := by
  rw [List.dropWhile_cons, h]
  simp

/-- Trimming strips a whitespace indent and a whitespace tail around a core
with non-whitespace first and last characters. -/
theorem trim_padded (ind core tail : List Char)
    (hind : ∀ c ∈ ind, isWSC c = true)
    (htail : ∀ c ∈ tail, isWSC c = true)
    (hhead : ∀ c, core.head? = some c → isWSC c = false)
    (hlast : ∀ c, core.getLast? = some c → isWSC c = false) :
    trimL (ind ++ core ++ tail) = core := by
  rw [trimL, List.append_assoc, dropWhile_ws_append ind _ hind]
  cases core with
  | nil =>
    rw [List.nil_append, dropWhile_ws_all tail htail]
    rfl
  | cons c core' =>
    have hc : isWSC c = false := hhead c rfl
    rw [List.cons_append, List.dropWhile_cons, hc]
    simp only [Bool.false_eq_true, if_false]
    rw [show (c :: (core' ++ tail)).reverse =
      tail.reverse ++ (c :: core').reverse by simp]
    rw [dropWhile_ws_append tail.reverse _
      (fun x hx => htail x (by simpa using hx))]
    have hrev : ((c :: core').reverse).dropWhile isWSC =
        (c :: core').reverse := by
      cases hr : (c :: core').reverse with
      | nil => simp at hr
      | cons a l =>
        refine dropWhile_cons_nonws a l ?_
        apply hlast
        rw [← List.head?_reverse, hr]
        rfl
    rw [hrev, List.reverse_reverse]

theorem dropWhile_len_le (p : Char → Bool) (l : List Char) :
    (l.dropWhile p).length ≤ l.length :=
  (List.dropWhile_suffix p).length_le

theorem trimL_length_le (l : List Char) : (trimL l).length ≤ l.length := by
  rw [trimL]
  have h1 := dropWhile_len_le isWSC l
  have h2 := dropWhile_len_le isWSC (l.dropWhile isWSC).reverse
  simp only [List.length_reverse] at *
  omega

theorem dropWhile_length_eq {p : Char → Bool} (l : List Char)
    (h : (l.dropWhile p).length = l.length) : l.dropWhile p = l := by
  cases l with
  | nil => rfl
  | cons a l' =>
    rw [List.dropWhile_cons] at h ⊢
    cases hp : p a with
    | true =>
      rw [hp] at h
      simp only [if_true, List.length_cons] at h
      have := dropWhile_len_le p l'
      omega
    | false => simp

theorem dropWhile_eq_self_head {p : Char → Bool} (l : List Char)
    (h : l.dropWhile p = l) :
    ∀ c, l.head? = some c → p c = false := by
  intro c hc
  cases l with
  | nil => simp at hc
  | cons a l' =>
    simp only [List.head?_cons, Option.some.injEq] at hc
    subst hc
    rw [List.dropWhile_cons] at h
    cases hp : p a with
    | true =>
      rw [hp] at h
      simp only [if_true] at h
      have h1 := congrArg List.length h
      have h2 := dropWhile_len_le p l'
      simp only [List.length_cons] at h1
      omega
    | false => rfl

theorem trim_eq_self_parts (l : List Char) (h : trimL l = l) :
    l.dropWhile isWSC = l ∧ l.reverse.dropWhile isWSC = l.reverse := by
  have hd : l.dropWhile isWSC = l := by
    apply dropWhile_length_eq
    have h1 := dropWhile_len_le isWSC l
    have h2 := dropWhile_len_le isWSC (l.dropWhile isWSC).reverse
    have h3 := congrArg List.length h
    rw [trimL] at h3
    simp only [List.length_reverse] at *
    omega
  refine ⟨hd, ?_⟩
  rw [trimL, hd] at h
  have := congrArg List.reverse h
  rwa [List.reverse_reverse] at this

/-- A trimmed, non-empty line has non-whitespace first and last characters. -/
theorem trimmed_head_last (l : List Char) (h : trimL l = l) :
    (∀ c, l.head? = some c → isWSC c = false) ∧
    (∀ c, l.getLast? = some c → isWSC c = false) := by
  obtain ⟨h1, h2⟩ := trim_eq_self_parts l h
  refine ⟨dropWhile_eq_self_head l h1, ?_⟩
  intro c hc
  refine dropWhile_eq_self_head l.reverse h2 c ?_
  rw [List.head?_reverse]
  exact hc

-- prefixes --

theorem prefL_length_le (p l : List Char) (h : prefL p l = true) :
    p.length ≤ l.length := by
  induction p generalizing l with
  | nil => simp
  | cons a as ih =>
    cases l with
    | nil => simp [prefL] at h
    | cons b bs =>
      simp only [prefL, Bool.and_eq_true] at h
      simpa using ih bs h.2

theorem prefL_eq_of_length (p l : List Char) (h : prefL p l = true)
    (hl : l.length ≤ p.length) : p = l := by
  induction p generalizing l with
  | nil =>
    cases l with
    | nil => rfl
    | cons b bs => simp at hl
  | cons a as ih =>
    cases l with
    | nil => simp [prefL] at h
    | cons b bs =>
      simp only [prefL, Bool.and_eq_true, beq_iff_eq] at h
      simp only [List.length_cons] at hl
      rw [h.1, ih bs h.2 (by omega)]

theorem prefL_append_ext (p a b : List Char) (h : prefL p a = true) :
    prefL p (a ++ b) = true := by
  induction p generalizing a with
  | nil => rfl
  | cons c cs ih =>
    cases a with
    | nil => simp [prefL] at h
    | cons x xs =>
      simp only [prefL, Bool.and_eq_true] at h
      simp only [List.cons_append, prefL, Bool.and_eq_true]
      exact ⟨h.1, ih xs h.2⟩

/-- A whitespace-free pattern that prefixes `token ++ ws :: rest` already
prefixes the token. -/
theorem prefL_token_sep (p k : List Char) (c : Char) (r : List Char)
    (hp : ∀ x ∈ p, isWSC x = false) (hc : isWSC c = true)
    (h : prefL p (k ++ c :: r) = true) : prefL p k = true := by
  induction p generalizing k with
  | nil => rfl
  | cons a as ih =>
    cases k with
    | nil =>
      simp only [List.nil_append, prefL, Bool.and_eq_true, beq_iff_eq] at h
      rw [h.1] at hp
      have := hp c (List.mem_cons_self c as)
      rw [this] at hc
      exact absurd hc (by simp)
    | cons b bs =>
      simp only [List.cons_append, prefL, Bool.and_eq_true] at h
      simp only [prefL, Bool.and_eq_true]
      exact ⟨h.1, ih bs (fun x hx => hp x (List.mem_cons_of_mem a hx)) h.2⟩

theorem prefL_hash (l : List Char) :
    prefL ['#'] l = true ↔ l.head? = some '#' := by
  cases l with
  | nil => simp [prefL]
  | cons c cs =>
    simp only [prefL, List.head?_cons, Option.some.injEq]
    constructor
    · intro h
      simp only [Bool.and_eq_true, beq_iff_eq] at h
      exact h.1.symm
    · intro h
      subst h
      simp [prefL]

-- token decomposition of a trimmed line --

theorem splitWSL_decomp (l : List Char) (hh : ∀ c, l.head? = some c → isWSC c = false)
    (hne : l ≠ []) :
    splitWSL l = l.takeWhile (fun c => !isWSC c) ::
      splitWSL (l.dropWhile (fun c => !isWSC c)) := by
  cases l with
  | nil => exact absurd rfl hne
  | cons c cs =>
    have hc := hh c rfl
    have hsplit : c :: cs = (c :: cs).takeWhile (fun c => !isWSC c) ++
        (c :: cs).dropWhile (fun c => !isWSC c) :=
      (List.takeWhile_append_dropWhile _ _).symm
    have htw : ∀ x ∈ (c :: cs).takeWhile (fun c => !isWSC c),
        isWSC x = false := by
      intro x hx
      have := List.mem_takeWhile_imp hx
      simpa using this
    conv_lhs => rw [splitWSL, hsplit]
    rw [splitWSAux_nonws _ htw _ []]
    cases hd : (c :: cs).dropWhile (fun c => !isWSC c) with
    | nil =>
      rw [splitWSAux]
      have htne : (c :: cs).takeWhile (fun c => !isWSC c) ≠ [] := by
        rw [List.takeWhile_cons, hc]
        simp
      simp only [List.append_nil, List.isEmpty_iff,
        List.reverse_eq_nil_iff, htne, if_false, List.reverse_reverse,
        hd, splitWSL]
      rfl
    | cons d ds =>
      have hdws : isWSC d = true := by
        have := List.head?_dropWhile_not (fun c => !isWSC c) (c :: cs)
        rw [hd] at this
        simpa using this
      rw [splitWSAux, hdws]
      have htne : (c :: cs).takeWhile (fun c => !isWSC c) ≠ [] := by
        rw [List.takeWhile_cons, hc]
        simp
      have hre : ((c :: cs).takeWhile (fun c => !isWSC c)).reverse.isEmpty
          = false := by
        cases hr : ((c :: cs).takeWhile (fun c => !isWSC c)).reverse with
        | nil => exact absurd (List.reverse_eq_nil_iff.mp hr) htne
        | cons a lx => rfl
      simp only [if_true, List.append_nil, hre, Bool.false_eq_true,
        if_false, List.reverse_reverse]
      rw [show splitWSL (d :: ds) = splitWSAux ds [] by
        rw [splitWSL, splitWSAux, hdws]; simp]

theorem splitWSAux_ne_nil (l acc : List Char) (hacc : acc ≠ []) :
    splitWSAux l acc ≠ [] := by
  induction l generalizing acc with
  | nil =>
    rw [splitWSAux]
    simp [List.isEmpty_iff, hacc]
  | cons c cs ih =>
    rw [splitWSAux]
    split
    · simp [List.isEmpty_iff, hacc]
    · exact ih (c :: acc) (by simp)

theorem splitWSL_nil_all_ws (r : List Char) (h : splitWSL r = []) :
    ∀ c ∈ r, isWSC c = true := by
  induction r with
  | nil => simp
  | cons c cs ih =>
    rw [splitWSL, splitWSAux] at h
    intro x hx
    by_cases hcw : isWSC c = true
    · rw [hcw] at h
      simp only [List.isEmpty_nil, if_true] at h
      rcases List.mem_cons.mp hx with h1 | h1
      · rwa [h1]
      · exact ih h x h1
    · rw [Bool.not_eq_true] at hcw
      rw [hcw] at h
      simp only [Bool.false_eq_true, if_false] at h
      exact absurd h (splitWSAux_ne_nil cs [c] (by simp))

/-- The decomposition facts for a trimmed, non-blank line whose first split
token is `k`: the line starts with `k`, `k` is a good token, and the rest
of the line is empty (no further tokens) or begins with whitespace and
carries the remaining tokens. -/
theorem token_decomp (l k : String) (ts : List String)
    (hc : trimL l.data = l.data) (hne : l.data ≠ [])
    (hs : strSplit l = k :: ts) :
    ∃ rd, l.data = k.data ++ rd ∧ goodTokL k.data = true ∧
      ((rd = [] ∧ ts = []) ∨
        (∃ c rd', rd = c :: rd' ∧ isWSC c = true ∧ ts ≠ [] ∧
          splitWSL rd = ts.map String.data)) := by
  have hdata : splitWSL l.data = (k :: ts).map String.data := by
    have h0 : (splitWSL l.data).map String.mk = k :: ts := hs
    have h1 := congrArg (List.map String.data) h0
    rw [List.map_map, show (String.data ∘ String.mk) = id from
      funext fun x => rfl, List.map_id] at h1
    exact h1
  have hhead := (trimmed_head_last l.data hc).1
  have hlast := (trimmed_head_last l.data hc).2
  have hdec := splitWSL_decomp l.data hhead hne
  rw [hdec] at hdata
  simp only [List.map_cons, List.cons.injEq] at hdata
  obtain ⟨hk, hts⟩ := hdata
  have hgood : goodTokL k.data = true := by
    have hmem : k.data ∈ splitWSL l.data := by
      rw [hdec, hk]
      exact List.mem_cons_self _ _
    exact splitWSL_tokens_good l.data k.data hmem
  refine ⟨l.data.dropWhile (fun c => !isWSC c), ?_, hgood, ?_⟩
  · rw [← hk]
    exact (List.takeWhile_append_dropWhile _ _).symm
  · cases hd : l.data.dropWhile (fun c => !isWSC c) with
    | nil =>
      left
      refine ⟨rfl, ?_⟩
      rw [hd] at hts
      cases ts with
      | nil => rfl
      | cons a l2 => simp [splitWSL, splitWSAux] at hts
    | cons c rd' =>
      right
      have hcws : isWSC c = true := by
        have := List.head?_dropWhile_not (fun c => !isWSC c) l.data
        rw [hd] at this
        simpa using this
      refine ⟨c, rd', rfl, hcws, ?_, by rw [← hd, ← hts]⟩
      intro hts0
      subst hts0
      simp only [List.map_nil] at hts
      have hallws := splitWSL_nil_all_ws _ hts
      have hll : l.data = l.data.takeWhile (fun c => !isWSC c) ++
          (c :: rd') := by
        rw [← hd]
        exact (List.takeWhile_append_dropWhile _ _).symm
      have hlws : ∀ x, l.data.getLast? = some x → isWSC x = true := by
        intro x hx
        rw [hll] at hx
        rw [List.getLast?_append_of_ne_nil _ (by simp)] at hx
        refine hallws x ?_
        rw [hd]
        exact List.mem_of_mem_getLast?
          (show x ∈ (c :: rd').getLast? from hx)
      cases hgl : l.data.getLast? with
      | none =>
        exact absurd (List.getLast?_eq_none_iff.mp hgl) hne
      | some x =>
        have h1 := hlast x hgl
        have h2 := hlws x hgl
        rw [h1] at h2
        exact absurd h2 (by simp)

/-- A trimmed one-token line is exactly its token. -/
theorem single_token_line (l k : String)
    (hc : trimL l.data = l.data) (hne : l.data ≠ [])
    (hs : strSplit l = [k]) : l = k := by
  obtain ⟨rd, hld, _, hcase⟩ := token_decomp l k [] hc hne hs
  rcases hcase with ⟨hrd, -⟩ | ⟨c, rd', hrd, -, hts, -⟩
  · subst hrd
    apply congrArg String.mk ?_ |>.trans ?_
    · exact l.data
    · rfl
    · rw [hld, List.append_nil]
  · exact absurd rfl hts

/-- The first character of a trimmed line is the first character of its
first token. -/
theorem line_head_eq_token_head (l k : String) (ts : List String)
    (hc : trimL l.data = l.data) (hne : l.data ≠ [])
    (hs : strSplit l = k :: ts) : l.data.head? = k.data.head? := by
  obtain ⟨rd, hld, hgood, -⟩ := token_decomp l k ts hc hne hs
  have hkne : k.data ≠ [] := by
    simp only [goodTokL, Bool.and_eq_true] at hgood
    simpa [List.isEmpty_iff] using hgood.1
  rw [hld]
  cases hkd : k.data with
  | nil => exact absurd hkd hkne
  | cons a l' => rfl

/-- For a pattern of non-whitespace characters, `l.lower().startswith(p)`
is equivalent to `k.lower().startswith(p)` for the line's first token `k`. -/
theorem startsWith_lower_token (l k : String) (ts : List String) (p : String)
    (hc : trimL l.data = l.data) (hne : l.data ≠ [])
    (hs : strSplit l = k :: ts) (hp : ∀ x ∈ p.data, isWSC x = false) :
    strStarts (strLower l) p = strStarts (strLower k) p := by
  obtain ⟨rd, hld, hgood, hcase⟩ := token_decomp l k ts hc hne hs
  rcases hcase with ⟨hrd, -⟩ | ⟨c, rd', hrd, hcw, -, -⟩
  · subst hrd
    have hdata : l.data = k.data := by simpa using hld
    show prefL p.data (lowerL l.data) = prefL p.data (lowerL k.data)
    rw [hdata]
  · have hlow : (strLower l).data = (strLower k).data ++
        lowerC c :: lowerL rd' := by
      show lowerL l.data = lowerL k.data ++ lowerC c :: lowerL rd'
      rw [hld, hrd, lowerL_append]
      rfl
    show prefL p.data (strLower l).data = prefL p.data (strLower k).data
    rw [hlow]
    cases hkp : prefL p.data (strLower k).data with
    | true => exact prefL_append_ext _ _ _ hkp
    | false =>
      cases hlp : prefL p.data ((strLower k).data ++ lowerC c :: lowerL rd')
        with
      | false => rfl
      | true =>
        have := prefL_token_sep p.data (strLower k).data (lowerC c)
          (lowerL rd') hp (by rw [lowerC_ws]; exact hcw) hlp
        rw [this] at hkp
        exact hkp

/-- The header regex test, characterized on the line's tokens: a trimmed
line matches `^structure\s+` (case-insensitively) exactly when its first
token lowercases to `structure` and another token follows. -/
theorem isStructHeader_iff_tokens (l k : String) (ts : List String)
    (hc : trimL l.data = l.data) (hne : l.data ≠ [])
    (hs : strSplit l = k :: ts) :
    isStructHeader l = true ↔ (strLower k = "structure" ∧ ts ≠ []) := by
  obtain ⟨rd, hld, hgood, hcase⟩ := token_decomp l k ts hc hne hs
  have hglow := goodTokL_lower k.data hgood
  have hsw : ∀ x ∈ "structure".data, isWSC x = false := by decide
  constructor
  · intro h
    simp only [isStructHeader, Bool.and_eq_true] at h
    obtain ⟨hpre, hws9⟩ := h
    rcases hcase with ⟨hrd, hts⟩ | ⟨c, rd', hrd, hcw, htsne, -⟩
    · exfalso
      subst hrd
      rw [List.append_nil] at hld
      have hlk : lowerL l.data = lowerL k.data := by rw [hld]
      rw [hlk] at hws9
      split at hws9
      · rename_i c1 rest1 hdrop
        have hc1 : c1 ∈ lowerL k.data := by
          have : c1 ∈ (lowerL k.data).drop 9 := by
            rw [hdrop]; exact List.mem_cons_self _ _
          exact List.mem_of_mem_drop this
        simp only [goodTokL, Bool.and_eq_true, List.all_eq_true,
          Bool.not_eq_true'] at hglow
        rw [hglow.2 c1 hc1] at hws9
        exact absurd hws9 (by simp)
      · exact absurd hws9 (by simp)
    · have hlow : lowerL l.data = lowerL k.data ++
          lowerC c :: lowerL rd' := by
        rw [hld, hrd, lowerL_append]
        rfl
      have hlcw : isWSC (lowerC c) = true := by rw [lowerC_ws]; exact hcw
      have hpk : prefL "structure".data (lowerL k.data) = true :=
        prefL_token_sep _ _ _ _ hsw hlcw (by rw [← hlow]; exact hpre)
      have hlen : ("structure".data).length ≤ (lowerL k.data).length :=
        prefL_length_le _ _ hpk
      have hlen9 : (lowerL k.data).length ≤ 9 := by
        by_contra hgt
        push_neg at hgt
        rw [hlow] at hws9
        split at hws9
        · rename_i c1 rest1 hdrop
          have hget : (lowerL k.data ++ lowerC c :: lowerL rd')[9]? =
              (lowerL k.data)[9]? := List.getElem?_append_left (by omega)
          have hhd := List.head?_drop
            (lowerL k.data ++ lowerC c :: lowerL rd') 9
          rw [hdrop] at hhd
          simp only [List.head?_cons] at hhd
          have hc1 : c1 ∈ lowerL k.data := by
            refine List.getElem?_mem (?_ : (lowerL k.data)[9]? = some c1)
            rw [← hget]
            exact hhd.symm
          simp only [goodTokL, Bool.and_eq_true, List.all_eq_true,
            Bool.not_eq_true'] at hglow
          rw [hglow.2 c1 hc1] at hws9
          exact absurd hws9 (by simp)
        · exact absurd hws9 (by simp)
      have h9 : ("structure".data).length = 9 := by decide
      have heq := prefL_eq_of_length _ _ hpk (by omega)
      refine ⟨?_, htsne⟩
      show String.mk (lowerL k.data) = "structure"
      rw [← heq]
  · rintro ⟨hlk, htsne⟩
    rcases hcase with ⟨-, hts⟩ | ⟨c, rd', hrd, hcw, -, -⟩
    · exact absurd hts htsne
    · have hkl : lowerL k.data = "structure".data := by
        have := congrArg String.data hlk
        exact this
      have hlow : lowerL l.data = "structure".data ++
          lowerC c :: lowerL rd' := by
        rw [hld, hrd, lowerL_append, hkl]
        rfl
      simp only [isStructHeader, Bool.and_eq_true]
      constructor
      · rw [hlow]
        exact prefL_append_self _ _
      · rw [hlow]
        rw [show (9 : Nat) = ("structure".data).length from by decide,
          List.drop_left]
        simpa [lowerC_ws] using hcw

-- Invariants the parser establishes -----------------------------------------

def goodTok (t : String) : Bool := goodTokL t.data

def goodToks (ts : List String) : Bool := ts.all goodTok

/-- Key sets of Python dicts are duplicate-free. -/
def nodupKeys {α : Type} : List (String × α) → Bool
  | [] => true
  | (k, _) :: r => !(r.any (fun p => p.1 = k)) && nodupKeys r

/-- A line as the comment/blank filter leaves it: stripped, non-empty, not
a comment. -/
def cleanLine (l : String) : Bool :=
  (strTrim l == l) && (l != "") && !strStarts l "#"

/-- What the parser guarantees about a global-option entry. -/
def wfGlobalEntry (p : String × List String) : Bool :=
  goodTok p.1 && goodToks p.2 && !strStarts p.1 "#" &&
    !(strLower p.1 == "structure" && !p.2.isEmpty)

/-- What the parser guarantees about a property entry of a block. -/
def wfProp (p : String × List String) : Bool :=
  goodTok p.1 && goodToks p.2 && !strStarts p.1 "#" &&
    strLower p.1 != "inside" && strLower p.1 != "outside" &&
    !strStarts (strLower p.1) "atoms"

/-- What the parser guarantees about a nested line of an atoms block. -/
def wfNested (n : String) : Bool :=
  cleanLine n && strLower n != "end atoms"

def wfCon : PCon → Bool
  | PCon.simpleC c =>
    goodTok c.keyword && goodTok c.block && goodToks c.params &&
      (strLower c.keyword == "inside" || strLower c.keyword == "outside")
  | PCon.atomsC d => goodToks d.atoms && d.constraints.all wfNested

def wfOther (o : String) : Bool :=
  goodTok o && (strLower o == "inside" || strLower o == "outside")

def wfStruct (s : StructBlock) : Bool :=
  goodTok s.structure_file && s.properties.all wfProp &&
    nodupKeys s.properties && s.constraints.all wfCon &&
    s.others.all wfOther

/-- Everything `parse_packmol_file` guarantees about a configuration it
returns. -/
def wfConfig (c : Config) : Bool :=
  c.globalOpts.all wfGlobalEntry && nodupKeys c.globalOpts &&
    c.structures.all wfStruct

/-- The one collision the generator's whitespace normalization can create: a
property whose key and tokens rejoin (single-spaced, lowercased) to the
block delimiter `end structure`. -/
def noCollideProp (p : String × List String) : Bool :=
  !(strLower p.1 == "end" && p.2.map strLower == ["structure"])

def noCollide (c : Config) : Bool :=
  c.structures.all (fun s => s.properties.all noCollideProp)

-- Normalized generated lines -------------------------------------------------

/-- The written form of a `key` + token-list line (`key + " " + " ".join`). -/
def genKV (k : String) (ts : List String) : String :=
  k ++ " " ++ joinSp ts

/-- The stripped form of such a line: no trailing space when the token list
is empty. -/
def normKV (k : String) (ts : List String) : String :=
  if ts.isEmpty then k else genKV k ts

theorem normKV_data (k : String) (ts : List String) :
    (normKV k ts).data = joinSepL [' '] ((k :: ts).map String.data) := by
  rw [normKV]
  cases ts with
  | nil => simp [joinSepL]
  | cons t ts' =>
    simp only [List.isEmpty_cons, Bool.false_eq_true, if_false, genKV]
    show (k ++ " " ++ joinSp (t :: ts')).data = _
    rw [sdata_append, sdata_append]
    simp [joinSp, joinSepL]

theorem normKV_split (k : String) (ts : List String)
    (hk : goodTok k = true) (hts : goodToks ts = true) :
    strSplit (normKV k ts) = k :: ts := by
  have hall : ∀ t ∈ (k :: ts).map String.data, goodTokL t = true := by
    intro t ht
    simp only [List.mem_map] at ht
    obtain ⟨x, hx, rfl⟩ := ht
    rcases List.mem_cons.mp hx with h1 | h1
    · subst h1; exact hk
    · simp only [goodToks, List.all_eq_true] at hts
      exact hts x h1
  rw [strSplit, normKV_data, splitWSL_joinSep _ hall]
  simp only [List.map_map]
  rw [show (String.mk ∘ String.data) = id from funext fun x => by cases x; rfl]
  simp

theorem goodTokL_head (t : List Char) (h : goodTokL t = true) :
    ∀ c, t.head? = some c → isWSC c = false := by
  intro c hc
  simp only [goodTokL, Bool.and_eq_true, List.all_eq_true,
    Bool.not_eq_true'] at h
  cases t with
  | nil => simp at hc
  | cons a l =>
    simp only [List.head?_cons, Option.some.injEq] at hc
    rw [← hc]
    exact h.2 a (List.mem_cons_self a l)

theorem joinSep_head_nonws (toks : List (List Char))
    (h : ∀ t ∈ toks, goodTokL t = true) :
    ∀ c, (joinSepL [' '] toks).head? = some c → isWSC c = false := by
  intro c hc
  cases toks with
  | nil => simp [joinSepL] at hc
  | cons t rest =>
    have ht := h t (List.mem_cons_self t rest)
    have htne : t ≠ [] := by
      simp only [goodTokL, Bool.and_eq_true] at ht
      simpa [List.isEmpty_iff] using ht.1
    have hhd : (joinSepL [' '] (t :: rest)).head? = t.head? := by
      cases rest with
      | nil => rfl
      | cons t' ts' =>
        rw [joinSepL]
        cases t with
        | nil => exact absurd rfl htne
        | cons a l => rfl
    rw [hhd] at hc
    exact goodTokL_head t ht c hc

theorem joinSep_getLast_nonws (toks : List (List Char))
    (h : ∀ t ∈ toks, goodTokL t = true) :
    ∀ c, (joinSepL [' '] toks).getLast? = some c → isWSC c = false := by
  induction toks with
  | nil => intro c hc; simp [joinSepL] at hc
  | cons t rest ih =>
    intro c hc
    have ht := h t (List.mem_cons_self t rest)
    cases rest with
    | nil =>
      simp only [goodTokL, Bool.and_eq_true, List.all_eq_true,
        Bool.not_eq_true'] at ht
      exact ht.2 c (List.mem_of_mem_getLast?
        (show c ∈ t.getLast? from hc))
    | cons t' ts' =>
      have hne : joinSepL [' '] (t' :: ts') ≠ [] := by
        intro he
        have ht' := h t' (List.mem_cons_of_mem t (List.mem_cons_self t' ts'))
        have : (joinSepL [' '] (t' :: ts')).head? = t'.head? := by
          cases ts' with
          | nil => rfl
          | cons a l =>
            rw [joinSepL]
            cases ht'' : t' with
            | nil =>
              simp only [goodTokL, Bool.and_eq_true] at ht'
              rw [ht''] at ht'
              simp at ht'
            | cons a2 l2 => rfl
        rw [he] at this
        cases ht2 : t' with
        | nil =>
          simp only [goodTokL, Bool.and_eq_true] at ht'
          rw [ht2] at ht'
          simp at ht'
        | cons a2 l2 =>
          rw [ht2] at this
          simp at this
      have hstep : joinSepL [' '] (t :: t' :: ts') =
          (t ++ [' ']) ++ joinSepL [' '] (t' :: ts') := by
        show t ++ [' '] ++ _ = _
        simp [joinSepL]
      rw [hstep, List.getLast?_append_of_ne_nil _ hne] at hc
      exact ih (fun x hx => h x (List.mem_cons_of_mem t hx)) c hc

/-- Trimming a generated `indent ++ key-tokens-line ++ optional-space`. -/
theorem trim_norm (ind : List Char) (k : String) (ts : List String)
    (tail : List Char)
    (hind : ∀ c ∈ ind, isWSC c = true) (htail : ∀ c ∈ tail, isWSC c = true)
    (hk : goodTok k = true) (hts : goodToks ts = true) :
    trimL (ind ++ (normKV k ts).data ++ tail) = (normKV k ts).data := by
  have hall : ∀ t ∈ (k :: ts).map String.data, goodTokL t = true := by
    intro t ht
    simp only [List.mem_map] at ht
    obtain ⟨x, hx, rfl⟩ := ht
    rcases List.mem_cons.mp hx with h1 | h1
    · subst h1; exact hk
    · simp only [goodToks, List.all_eq_true] at hts
      exact hts x h1
  refine trim_padded ind _ tail hind htail ?_ ?_
  · rw [normKV_data]
    exact joinSep_head_nonws _ hall
  · rw [normKV_data]
    exact joinSep_getLast_nonws _ hall

-- dinsert preserves dict invariants --

theorem dinsert_all {α : Type} (P : String × α → Bool)
    (d : List (String × α)) (k : String) (v : α)
    (hd : d.all P = true) (hkv : P (k, v) = true) :
    (dinsert d k v).all P = true := by
  unfold dinsert
  split
  · simp only [List.all_eq_true] at hd ⊢
    intro p hp
    simp only [List.mem_map] at hp
    obtain ⟨q, hq, hqe⟩ := hp
    by_cases hqk : q.1 = k
    · rw [if_pos hqk] at hqe
      rw [← hqe]
      exact hkv
    · rw [if_neg hqk] at hqe
      rw [← hqe]
      exact hd q hq
  · simp only [List.all_append, Bool.and_eq_true, List.all_eq_true]
    exact ⟨by simpa [List.all_eq_true] using hd, by simpa using hkv⟩

theorem dinsert_keys {α : Type} (d : List (String × α)) (k : String)
    (v : α) :
    (d.map (fun p => if p.1 = k then (k, v) else p)).map Prod.fst =
      d.map Prod.fst := by
  rw [List.map_map]
  apply List.map_congr_left
  intro p _
  by_cases hpk : p.1 = k
  · simp [Function.comp, if_pos hpk, hpk]
  · simp [Function.comp, if_neg hpk]

theorem any_key_congr {α : Type} (r r' : List (String × α)) (k : String)
    (h : r.map Prod.fst = r'.map Prod.fst) :
    r.any (fun p => p.1 = k) = r'.any (fun p => p.1 = k) := by
  induction r generalizing r' with
  | nil =>
    cases r' with
    | nil => rfl
    | cons q' rest' => simp at h
  | cons q rest ih =>
    cases r' with
    | nil => simp at h
    | cons q' rest' =>
      simp only [List.map_cons, List.cons.injEq] at h
      simp only [List.any_cons, h.1, ih rest' h.2]

theorem nodupKeys_congr {α : Type} (d d' : List (String × α))
    (h : d.map Prod.fst = d'.map Prod.fst) :
    nodupKeys d = nodupKeys d' := by
  induction d generalizing d' with
  | nil =>
    cases d' with
    | nil => rfl
    | cons q' rest' => simp at h
  | cons q rest ih =>
    cases d' with
    | nil => simp at h
    | cons q' rest' =>
      simp only [List.map_cons, List.cons.injEq] at h
      show (!(rest.any (fun p => p.1 = q.1)) && nodupKeys rest) = _
      rw [h.1, any_key_congr rest rest' q'.1 h.2, ih rest' h.2]
      rfl

theorem nodupKeys_append_fresh {α : Type} (d : List (String × α))
    (k : String) (v : α) (hn : nodupKeys d = true)
    (hf : d.any (fun p => p.1 = k) = false) :
    nodupKeys (d ++ [(k, v)]) = true := by
  induction d with
  | nil => rfl
  | cons q rest ih =>
    obtain ⟨qk, qv⟩ := q
    simp only [nodupKeys, Bool.and_eq_true, Bool.not_eq_true'] at hn
    simp only [List.any_cons, Bool.or_eq_false_iff] at hf
    simp only [List.cons_append, nodupKeys, Bool.and_eq_true,
      Bool.not_eq_true']
    constructor
    · simp only [List.append_eq, List.any_append, Bool.or_eq_false_iff]
      refine ⟨hn.1, ?_⟩
      simp only [List.any_cons, List.any_nil, Bool.or_false,
        decide_eq_false_iff_not]
      intro hkq
      rw [← hkq] at hf
      simp at hf
    · exact ih hn.2 hf.2

theorem dinsert_nodup {α : Type} (d : List (String × α)) (k : String)
    (v : α) (hn : nodupKeys d = true) :
    nodupKeys (dinsert d k v) = true := by
  unfold dinsert
  split
  · rw [nodupKeys_congr _ d (dinsert_keys d k v)]
    exact hn
  · rename_i hany
    rw [Bool.not_eq_true] at hany
    exact nodupKeys_append_fresh d k v hn hany

theorem dinsert_fresh {α : Type} (d : List (String × α)) (k : String)
    (v : α) (hf : d.any (fun p => p.1 = k) = false) :
    dinsert d k v = d ++ [(k, v)] := by
  unfold dinsert
  rw [hf]
  simp

/-- Rebuilding a duplicate-free dict by repeated insertion reproduces it. -/
theorem foldl_dinsert_self {α : Type} (gs acc : List (String × α))
    (hn : nodupKeys gs = true)
    (hdisj : ∀ p ∈ gs, acc.any (fun q => q.1 = p.1) = false) :
    List.foldl (fun g p => dinsert g p.1 p.2) acc gs = acc ++ gs := by
  induction gs generalizing acc with
  | nil => simp
  | cons p rest ih =>
    simp only [nodupKeys, Bool.and_eq_true, Bool.not_eq_true'] at hn
    simp only [List.foldl_cons]
    rw [dinsert_fresh acc p.1 p.2 (hdisj p (List.mem_cons_self p rest))]
    rw [ih (acc ++ [(p.1, p.2)]) hn.2 ?_]
    · simp
    · intro q hq
      rw [List.any_append]
      simp only [Bool.or_eq_false_iff]
      refine ⟨hdisj q (List.mem_cons_of_mem p hq), ?_⟩
      simp only [List.any_cons, List.any_nil, Bool.or_false,
        decide_eq_false_iff_not]
      intro hqp
      rw [List.any_eq_false] at hn
      have := hn.1 q hq
      simp only [decide_eq_true_eq] at this
      exact this (by rw [hqp])

theorem strSplit_good (l : String) : ∀ t ∈ strSplit l, goodTok t = true := by
  intro t ht
  simp only [strSplit, List.mem_map] at ht
  obtain ⟨x, hx, rfl⟩ := ht
  exact splitWSL_tokens_good l.data x hx

theorem string_ne_iff_data (l : String) : l ≠ "" ↔ l.data ≠ [] := by
  rw [ne_eq, String.ext_iff]

theorem cleanLine_parts (l : String) (h : cleanLine l = true) :
    trimL l.data = l.data ∧ l.data ≠ [] ∧ prefL ['#'] l.data = false := by
  simp only [cleanLine, Bool.and_eq_true, bne_iff_ne, ne_eq,
    Bool.not_eq_true', beq_iff_eq] at h
  obtain ⟨⟨h1, h2⟩, h3⟩ := h
  refine ⟨?_, ?_, ?_⟩
  · exact congrArg String.data h1
  · exact (string_ne_iff_data l).mp h2
  · exact h3

theorem clean_split_ne (l : String) (h : cleanLine l = true) :
    strSplit l ≠ [] := by
  obtain ⟨h1, h2, -⟩ := cleanLine_parts l h
  have hhd := (trimmed_head_last l.data h1).1
  have hdec := splitWSL_decomp l.data hhd h2
  intro he
  have hsw : splitWSL l.data = [] := by
    cases hsw : splitWSL l.data with
    | nil => rfl
    | cons a r =>
      have h0' : (splitWSL l.data).map String.mk = [] := he
      rw [hsw] at h0'
      simp at h0'
  rw [hsw] at hdec
  simp at hdec

theorem goodToks_tail (k : String) (ts : List String)
    (h : ∀ t ∈ k :: ts, goodTok t = true) : goodToks ts = true := by
  simp only [goodToks, List.all_eq_true]
  intro t ht
  exact h t (List.mem_cons_of_mem k ht)

theorem line_no_hash_token (l k : String) (ts : List String)
    (hc : trimL l.data = l.data) (hne : l.data ≠ [])
    (hs : strSplit l = k :: ts) (hh : prefL ['#'] l.data = false) :
    strStarts k "#" = false := by
  have hhd := line_head_eq_token_head l k ts hc hne hs
  show prefL "#".data k.data = false
  cases hkp : prefL "#".data k.data with
  | false => rfl
  | true =>
    have hk := (prefL_hash k.data).mp hkp
    have hl : l.data.head? = some '#' := by rw [hhd]; exact hk
    have hlp : prefL ['#'] l.data = true := (prefL_hash l.data).mpr hl
    rw [hlp] at hh
    exact hh

/-- The parser-state invariant for the scan. -/
def wfMode : PMode → Bool
  | PMode.topGlobal => true
  | PMode.topSkip => true
  | PMode.inStruct cur => wfStruct cur
  | PMode.inAtoms cur atoms nested =>
    wfStruct cur && goodToks atoms && nested.all wfNested

theorem wfStruct_parts (s : StructBlock) :
    wfStruct s = true ↔
      (goodTok s.structure_file = true ∧ s.properties.all wfProp = true ∧
        nodupKeys s.properties = true ∧ s.constraints.all wfCon = true ∧
        s.others.all wfOther = true) := by
  simp only [wfStruct, Bool.and_eq_true]
  tauto

/-- Every invariant of `wfConfig` is maintained line by line through the
scan; in particular every configuration `parse_packmol_file` returns is
well-formed. -/
theorem parseLines_wf :
    ∀ (lines : List String) (g : List (String × List String))
      (ss : List StructBlock) (mode : PMode) (c : Config),
      (∀ l ∈ lines, cleanLine l = true) →
      g.all wfGlobalEntry = true → nodupKeys g = true →
      ss.all wfStruct = true → wfMode mode = true →
      parseLines g ss mode lines = Except.ok c →
      wfConfig c = true := by
  intro lines
  induction lines with
  | nil =>
    intro g ss mode c _ hg hgn hss hm hp
    rw [parseLines] at hp
    simp only [Except.ok.injEq] at hp
    subst hp
    simp only [wfConfig, Bool.and_eq_true]
    refine ⟨⟨hg, hgn⟩, ?_⟩
    simp only [List.all_append, Bool.and_eq_true]
    refine ⟨hss, ?_⟩
    cases mode with
    | topGlobal => rfl
    | topSkip => rfl
    | inStruct cur => simpa [closeMode] using hm
    | inAtoms cur atoms nested =>
      simp only [wfMode, Bool.and_eq_true] at hm
      simp only [closeMode, List.all_cons, List.all_nil, Bool.and_true]
      obtain ⟨⟨hstr, hga⟩, hnest⟩ := hm
      rw [wfStruct_parts] at hstr
      obtain ⟨h1, h2, h3, h4, h5⟩ := hstr
      rw [wfStruct_parts]
      refine ⟨h1, h2, h3, ?_, h5⟩
      simp only [List.all_append, Bool.and_eq_true]
      refine ⟨h4, ?_⟩
      simp only [List.all_cons, List.all_nil, Bool.and_true, wfCon,
        Bool.and_eq_true]
      exact ⟨hga, hnest⟩
  | cons l ls ih =>
    intro g ss mode c hcl hg hgn hss hm hp
    have hcll := hcl l (List.mem_cons_self l ls)
    have hclt : ∀ x ∈ ls, cleanLine x = true :=
      fun x hx => hcl x (List.mem_cons_of_mem l hx)
    obtain ⟨htr, hdne, hnh⟩ := cleanLine_parts l hcll
    have hopen : ∀ (m : PMode), openStruct l = Except.ok m →
        wfMode m = true := by
      intro m hm2
      rw [openStruct] at hm2
      cases hsl : strSplit l with
      | nil => rw [hsl] at hm2; exact absurd hm2 (by simp)
      | cons t1 r1 =>
        cases r1 with
        | nil => rw [hsl] at hm2; exact absurd hm2 (by simp)
        | cons f r2 =>
          rw [hsl] at hm2
          simp only [Except.ok.injEq] at hm2
          subst hm2
          have hf : goodTok f = true :=
            strSplit_good l f (by rw [hsl]; simp)
          simp [wfMode, wfStruct, nodupKeys, hf]
    cases mode with
    | topGlobal =>
      rw [parseLines] at hp
      by_cases hh : isStructHeader l = true
      · rw [if_pos hh] at hp
        cases hos : openStruct l with
        | error e => rw [hos] at hp; exact absurd hp (by simp)
        | ok m =>
          rw [hos] at hp
          exact ih g ss m c hclt hg hgn hss (hopen m hos) hp
      · rw [if_neg hh] at hp
        cases hsl : strSplit l with
        | nil =>
          rw [hsl] at hp
          exact ih g ss PMode.topGlobal c hclt hg hgn hss rfl hp
        | cons k ts =>
          rw [hsl] at hp
          have hgk : goodTok k = true :=
            strSplit_good l k (by rw [hsl]; simp)
          have hgt : goodToks ts = true :=
            goodToks_tail k ts (fun t ht => strSplit_good l t
              (by rw [hsl]; exact ht))
          have hsh : strStarts k "#" = false :=
            line_no_hash_token l k ts htr hdne hsl hnh
          have hnotstru : ¬ (strLower k = "structure" ∧ ts ≠ []) := by
            intro hcon
            exact hh ((isStructHeader_iff_tokens l k ts htr hdne hsl).mpr
              hcon)
          have hb : (strLower k == "structure" && !ts.isEmpty) = false := by
            by_cases h1 : strLower k = "structure"
            · have hts : ts = [] := by
                by_contra hts0
                exact hnotstru ⟨h1, hts0⟩
              subst hts
              simp
            · have h2 : (strLower k == "structure") = false :=
                beq_eq_false_iff_ne.mpr h1
              simp [h2]
          have hwfe : wfGlobalEntry (k, ts) = true := by
            simp [wfGlobalEntry, hgk, hgt, hsh, hb]
          exact ih (dinsert g k ts) ss PMode.topGlobal c hclt
            (dinsert_all wfGlobalEntry g k ts hg hwfe)
            (dinsert_nodup g k ts hgn) hss rfl hp
    | topSkip =>
      rw [parseLines] at hp
      by_cases hh : isStructHeader l = true
      · rw [if_pos hh] at hp
        cases hos : openStruct l with
        | error e => rw [hos] at hp; exact absurd hp (by simp)
        | ok m =>
          rw [hos] at hp
          exact ih g ss m c hclt hg hgn hss (hopen m hos) hp
      · rw [if_neg hh] at hp
        exact ih g ss PMode.topSkip c hclt hg hgn hss rfl hp
    | inStruct cur =>
      rw [parseLines] at hp
      rw [wfMode] at hm
      by_cases hes : strLower l = "end structure"
      · rw [if_pos hes] at hp
        refine ih g (ss ++ [cur]) PMode.topSkip c hclt hg hgn ?_ rfl hp
        simp only [List.all_append, Bool.and_eq_true]
        exact ⟨hss, by simpa using hm⟩
      · rw [if_neg hes] at hp
        by_cases hat : strStarts (strLower l) "atoms" = true
        · rw [if_pos hat] at hp
          refine ih g ss (PMode.inAtoms cur (strSplit l).tail []) c hclt
            hg hgn hss ?_ hp
          simp only [wfMode, Bool.and_eq_true]
          refine ⟨⟨hm, ?_⟩, by simp⟩
          cases hsl : strSplit l with
          | nil => simp [goodToks]
          | cons k ts =>
            simp only [List.tail_cons]
            exact goodToks_tail k ts (fun t ht => strSplit_good l t
              (by rw [hsl]; exact ht))
        · rw [if_neg hat] at hp
          cases hsl : strSplit l with
          | nil => exact absurd hsl (clean_split_ne l hcll)
          | cons k ts =>
            simp only [hsl] at hp
            have hgk : goodTok k = true :=
              strSplit_good l k (by rw [hsl]; simp)
            have hgt : goodToks ts = true :=
              goodToks_tail k ts (fun t ht => strSplit_good l t
                (by rw [hsl]; exact ht))
            rw [wfStruct_parts] at hm
            obtain ⟨hm1, hm2, hm3, hm4, hm5⟩ := hm
            by_cases hio : strLower k = "inside" ∨ strLower k = "outside"
            · rw [if_pos hio] at hp
              cases ts with
              | nil =>
                have hlk : l = k := single_token_line l k htr hdne hsl
                refine ih g ss (PMode.inStruct
                  { cur with others := cur.others ++ [l] }) c hclt hg hgn
                  hss ?_ hp
                rw [wfMode, wfStruct_parts]
                refine ⟨hm1, hm2, hm3, hm4, ?_⟩
                simp only [List.all_append, Bool.and_eq_true]
                refine ⟨hm5, ?_⟩
                simp only [List.all_cons, List.all_nil, Bool.and_true,
                  wfOther]
                rw [hlk]
                rcases hio with h1 | h1 <;> simp [hgk, h1]
              | cons t1 trest =>
                refine ih g ss (PMode.inStruct
                  { cur with constraints := cur.constraints ++
                    [PCon.simpleC ⟨k, t1, trest⟩] }) c hclt hg hgn hss ?_ hp
                rw [wfMode, wfStruct_parts]
                refine ⟨hm1, hm2, hm3, ?_, hm5⟩
                simp only [List.all_append, Bool.and_eq_true]
                refine ⟨hm4, ?_⟩
                simp only [goodToks, List.all_cons, Bool.and_eq_true] at hgt
                have hio' : (strLower k == "inside" ||
                    strLower k == "outside") = true := by
                  rcases hio with h1 | h1 <;> simp [h1]
                simp [wfCon, hgk, hgt.1, hgt.2, goodToks, hio']
            · rw [if_neg hio] at hp
              push_neg at hio
              have hsh : strStarts k "#" = false :=
                line_no_hash_token l k ts htr hdne hsl hnh
              have hatk : strStarts (strLower k) "atoms" = false := by
                rw [← startsWith_lower_token l k ts "atoms" htr hdne hsl
                  (by decide)]
                simpa using hat
              have hwfp : wfProp (k, ts) = true := by
                simp [wfProp, hgk, hgt, hsh, hatk, bne_iff_ne,
                  hio.1, hio.2]
              refine ih g ss (PMode.inStruct
                { cur with properties := dinsert cur.properties k ts }) c
                hclt hg hgn hss ?_ hp
              rw [wfMode, wfStruct_parts]
              exact ⟨hm1, dinsert_all wfProp cur.properties k ts hm2 hwfp,
                dinsert_nodup cur.properties k ts hm3, hm4, hm5⟩
    | inAtoms cur atoms nested =>
      rw [parseLines] at hp
      simp only [wfMode, Bool.and_eq_true] at hm
      obtain ⟨⟨hm1, hm2⟩, hm3⟩ := hm
      by_cases hea : strLower l = "end atoms"
      · rw [if_pos hea] at hp
        refine ih g ss (PMode.inStruct
          { cur with constraints := cur.constraints ++
            [PCon.atomsC ⟨atoms, nested⟩] }) c hclt hg hgn hss ?_ hp
        rw [wfStruct_parts] at hm1
        obtain ⟨h1, h2, h3, h4, h5⟩ := hm1
        rw [wfMode, wfStruct_parts]
        refine ⟨h1, h2, h3, ?_, h5⟩
        simp only [List.all_append, Bool.and_eq_true]
        refine ⟨h4, ?_⟩
        simp only [List.all_cons, List.all_nil, Bool.and_true, wfCon,
          Bool.and_eq_true]
        exact ⟨hm2, hm3⟩
      · rw [if_neg hea] at hp
        refine ih g ss (PMode.inAtoms cur atoms (nested ++ [l])) c hclt
          hg hgn hss ?_ hp
        simp only [wfMode, Bool.and_eq_true]
        refine ⟨⟨hm1, hm2⟩, ?_⟩
        simp only [List.all_append, Bool.and_eq_true]
        refine ⟨hm3, ?_⟩
        simp only [List.all_cons, List.all_nil, Bool.and_true, wfNested,
          Bool.and_eq_true]
        refine ⟨hcll, ?_⟩
        simpa using hea

theorem dropWhile_idem (l : List Char) :
    (l.dropWhile isWSC).dropWhile isWSC = l.dropWhile isWSC := by
  cases hd : l.dropWhile isWSC with
  | nil => rfl
  | cons c cs =>
    refine dropWhile_cons_nonws c cs ?_
    have := List.head?_dropWhile_not isWSC l
    rw [hd] at this
    simpa using this

theorem trimL_idem (x : List Char) : trimL (trimL x) = trimL x := by
  have hA : (trimL x).dropWhile isWSC = trimL x := by
    cases ht : trimL x with
    | nil => rfl
    | cons a zs =>
      refine dropWhile_cons_nonws a zs ?_
      have h1 : (trimL x).head? = some a := by rw [ht]; rfl
      rw [trimL, List.head?_reverse] at h1
      obtain ⟨u, hu⟩ := (List.dropWhile_suffix isWSC :
        ((x.dropWhile isWSC).reverse).dropWhile isWSC <:+
          (x.dropWhile isWSC).reverse)
      have hzne : ((x.dropWhile isWSC).reverse).dropWhile isWSC ≠ [] := by
        intro hz
        rw [hz] at h1
        simp at h1
      have hgl : (((x.dropWhile isWSC).reverse).dropWhile isWSC).getLast? =
          ((x.dropWhile isWSC).reverse).getLast? := by
        conv_rhs => rw [← hu]
        exact (List.getLast?_append_of_ne_nil u hzne).symm
      rw [hgl, List.getLast?_reverse] at h1
      exact dropWhile_eq_self_head _ (dropWhile_idem _) a h1
  have hB : (trimL x).reverse.dropWhile isWSC = (trimL x).reverse := by
    rw [trimL, List.reverse_reverse]
    exact dropWhile_idem _
  show ((((trimL x).dropWhile isWSC).reverse).dropWhile isWSC).reverse =
    trimL x
  rw [hA, hB, List.reverse_reverse]

theorem cleanLines_clean (lines : List String) :
    ∀ l ∈ cleanLines lines, cleanLine l = true := by
  intro l hl
  simp only [cleanLines, List.mem_filter, List.mem_map] at hl
  obtain ⟨⟨x, hx, rfl⟩, hpred⟩ := hl
  simp only [Bool.and_eq_true] at hpred
  simp only [cleanLine, Bool.and_eq_true]
  refine ⟨⟨?_, ?_⟩, ?_⟩
  · show (String.mk (trimL (strTrim x).data) == strTrim x) = true
    have : (strTrim x).data = trimL x.data := rfl
    rw [this, trimL_idem]
    exact beq_self_eq_true _
  · simpa using hpred.1
  · simpa using hpred.2

/-- Every configuration returned by `parse_packmol_file` satisfies all the
structural invariants in `wfConfig`. -/
theorem parse_packmol_wf (lines : List String) (c : Config)
    (h : parse_packmol_file lines = Except.ok c) : wfConfig c = true :=
  parseLines_wf (cleanLines lines) [] [] PMode.topGlobal c
    (cleanLines_clean lines) rfl rfl rfl rfl h

-- Normalized generated lines ------------------------------------------------

/-- The stripped form of a generated global-option line. -/
def normGlobal (p : String × List String) : String := normKV p.1 p.2

/-- The stripped form of a generated property line. -/
def normProp (p : String × List String) : String := normKV p.1 p.2

/-- The stripped, filter-surviving forms of the lines generated for one
constraint. -/
def normCon : PCon → List String
  | PCon.atomsC d => normKV "atoms" d.atoms :: d.constraints ++ ["end atoms"]
  | PCon.simpleC c => [normKV c.keyword (c.block :: c.params)]

/-- The stripped, filter-surviving lines generated for one structure block. -/
def normStruct (s : StructBlock) : List String :=
  ("structure " ++ s.structure_file)
    :: s.properties.map normProp
    ++ (s.constraints.map normCon).flatten
    ++ s.others
    ++ ["end structure"]

/-- What the comment/blank filter leaves of `generate_packmol_file c`. -/
def normLines (c : Config) : List String :=
  c.globalOpts.map normGlobal ++ (c.structures.map normStruct).flatten

theorem strTrim_eq_of_data (x y : String) (h : trimL x.data = y.data) :
    strTrim x = y := by
  rw [String.ext_iff]
  exact h

theorem goodTok_data_ne (k : String) (hk : goodTok k = true) : k.data ≠ [] := by
  intro h
  unfold goodTok goodTokL at hk
  rw [h] at hk
  simp at hk

theorem goodTokL_last (t : List Char) (h : goodTokL t = true) :
    ∀ c, t.getLast? = some c → isWSC c = false := by
  intro c hc
  simp only [goodTokL, Bool.and_eq_true, List.all_eq_true,
    Bool.not_eq_true'] at h
  refine h.2 c (List.mem_of_mem_getLast? ?_)
  simp [hc]

theorem goodTok_trim (o : String) (ho : goodTok o = true) :
    trimL o.data = o.data := by
  have hall : ∀ c ∈ o.data, isWSC c = false := by
    simp only [goodTok, goodTokL, Bool.and_eq_true, List.all_eq_true,
      Bool.not_eq_true'] at ho
    exact ho.2
  rw [trimL]
  have h1 : o.data.dropWhile isWSC = o.data := by
    cases hd : o.data with
    | nil => rfl
    | cons a as =>
      refine dropWhile_cons_nonws a as (hall a ?_)
      rw [hd]
      exact List.mem_cons_self a as
  rw [h1]
  have h2 : o.data.reverse.dropWhile isWSC = o.data.reverse := by
    cases hd : o.data.reverse with
    | nil => rfl
    | cons a as =>
      refine dropWhile_cons_nonws a as (hall a ?_)
      have ha : a ∈ o.data.reverse := by
        rw [hd]
        exact List.mem_cons_self a as
      simpa using ha
  rw [h2, List.reverse_reverse]

theorem joinSep_ne_nil (t : List Char) (rest : List (List Char))
    (ht : t ≠ []) : joinSepL [' '] (t :: rest) ≠ [] := by
  cases rest with
  | nil => simpa [joinSepL] using ht
  | cons u us => simp [joinSepL]

theorem joinSep_head (t : List Char) (rest : List (List Char))
    (ht : t ≠ []) : (joinSepL [' '] (t :: rest)).head? = t.head? := by
  cases rest with
  | nil => rfl
  | cons u us =>
    cases t with
    | nil => exact absurd rfl ht
    | cons a as => rfl

theorem normKV_ne_empty (k : String) (ts : List String)
    (hk : goodTok k = true) : normKV k ts ≠ "" := by
  rw [string_ne_iff_data, normKV_data]
  exact joinSep_ne_nil k.data _ (goodTok_data_ne k hk)

theorem normKV_data_ne (k : String) (ts : List String)
    (hk : goodTok k = true) : (normKV k ts).data ≠ [] :=
  (string_ne_iff_data _).mp (normKV_ne_empty k ts hk)

theorem normKV_no_hash (k : String) (ts : List String)
    (hk : goodTok k = true) (hh : strStarts k "#" = false) :
    strStarts (normKV k ts) "#" = false := by
  show prefL ['#'] (normKV k ts).data = false
  have hd : (normKV k ts).data.head? = k.data.head? := by
    rw [normKV_data]
    exact joinSep_head _ _ (goodTok_data_ne k hk)
  cases hp : prefL ['#'] (normKV k ts).data with
  | false => rfl
  | true =>
    have h1 := (prefL_hash _).mp hp
    rw [hd] at h1
    have h2 := (prefL_hash k.data).mpr h1
    have h3 : strStarts k "#" = true := h2
    rw [hh] at h3
    simp at h3

theorem normKV_trim (k : String) (ts : List String)
    (hk : goodTok k = true) (hts : goodToks ts = true) :
    trimL (normKV k ts).data = (normKV k ts).data := by
  have h := trim_norm [] k ts [] (by simp) (by simp) hk hts
  simpa using h

theorem kv_data (k : String) (ts : List String) :
    k.data ++ " ".data ++ (joinSp ts).data =
      (normKV k ts).data ++ (if ts.isEmpty then [' '] else []) := by
  cases ts with
  | nil => simp [normKV, joinSp, joinSepL]
  | cons t ts' => simp [normKV, genKV, sdata_append]

theorem simple_kv_data (kw blk : String) (ps : List String) :
    kw.data ++ " ".data ++ blk.data ++ " ".data ++ (joinSp ps).data =
      (normKV kw (blk :: ps)).data ++ (if ps.isEmpty then [' '] else []) := by
  cases ps with
  | nil => simp [normKV, genKV, joinSp, joinSepL, sdata_append]
  | cons q qs => simp [normKV, genKV, joinSp, joinSepL, sdata_append]

theorem tail_ws (ts : List String) :
    ∀ c ∈ (if ts.isEmpty then [' '] else ([] : List Char)), isWSC c = true := by
  cases ts with
  | nil =>
    intro c hc
    simp only [List.isEmpty_nil, if_true, List.mem_singleton] at hc
    subst hc
    decide
  | cons t ts' =>
    intro c hc
    simp at hc

theorem trim_global_line (k : String) (ts : List String)
    (hk : goodTok k = true) (hts : goodToks ts = true) :
    strTrim (k ++ " " ++ joinSp ts) = normKV k ts := by
  apply strTrim_eq_of_data
  have hd : (k ++ " " ++ joinSp ts).data =
      [] ++ (normKV k ts).data ++ (if ts.isEmpty then [' '] else []) := by
    rw [sdata_append, sdata_append, kv_data]
    simp
  rw [hd]
  exact trim_norm [] k ts _ (by simp) (tail_ws ts) hk hts

theorem trim_prop_line (k : String) (ts : List String)
    (hk : goodTok k = true) (hts : goodToks ts = true) :
    strTrim ("  " ++ k ++ " " ++ joinSp ts) = normKV k ts := by
  apply strTrim_eq_of_data
  have hd : ("  " ++ k ++ " " ++ joinSp ts).data =
      [' ', ' '] ++ (normKV k ts).data ++
        (if ts.isEmpty then [' '] else []) := by
    rw [sdata_append, sdata_append, sdata_append]
    have h2 := kv_data k ts
    simp only [List.append_assoc] at h2 ⊢
    rw [h2]
  rw [hd]
  exact trim_norm [' ', ' '] k ts _ (by decide) (tail_ws ts) hk hts

theorem trim_atoms_line (ts : List String) (hts : goodToks ts = true) :
    strTrim ("  atoms " ++ joinSp ts) = normKV "atoms" ts := by
  apply strTrim_eq_of_data
  have hd : ("  atoms " ++ joinSp ts).data =
      [' ', ' '] ++ (normKV "atoms" ts).data ++
        (if ts.isEmpty then [' '] else []) := by
    rw [sdata_append]
    have h2 := kv_data "atoms" ts
    simp only [List.append_assoc] at h2 ⊢
    rw [← h2]
    rfl
  rw [hd]
  exact trim_norm [' ', ' '] "atoms" ts _ (by decide) (tail_ws ts)
    (by decide) hts

theorem trim_simple_line (kw blk : String) (ps : List String)
    (hkw : goodTok kw = true) (hblk : goodTok blk = true)
    (hps : goodToks ps = true) :
    strTrim ("  " ++ kw ++ " " ++ blk ++ " " ++ joinSp ps) =
      normKV kw (blk :: ps) := by
  apply strTrim_eq_of_data
  have hts : goodToks (blk :: ps) = true := by
    simp only [goodToks, List.all_cons, Bool.and_eq_true]
    exact ⟨hblk, hps⟩
  have hd : ("  " ++ kw ++ " " ++ blk ++ " " ++ joinSp ps).data =
      [' ', ' '] ++ (normKV kw (blk :: ps)).data ++
        (if ps.isEmpty then [' '] else []) := by
    rw [sdata_append, sdata_append, sdata_append, sdata_append, sdata_append]
    have h2 := simple_kv_data kw blk ps
    simp only [List.append_assoc] at h2 ⊢
    rw [h2]
  rw [hd]
  exact trim_norm [' ', ' '] kw (blk :: ps) _ (by decide)
    (by
      intro c hc
      cases ps with
      | nil =>
        simp only [List.isEmpty_nil, if_true, List.mem_singleton] at hc
        subst hc
        decide
      | cons q qs => simp at hc) hkw hts

theorem trim_ws_pre (pre n : String)
    (hpre : ∀ c ∈ pre.data, isWSC c = true)
    (hc : trimL n.data = n.data) (hne : n.data ≠ []) :
    strTrim (pre ++ n) = n := by
  apply strTrim_eq_of_data
  rw [sdata_append]
  obtain ⟨hh, hl⟩ := trimmed_head_last n.data hc
  have h := trim_padded pre.data n.data [] hpre (by simp) hh hl
  simpa using h

theorem trim_header_line (f : String) (hf : goodTok f = true) :
    strTrim ("structure " ++ f) = "structure " ++ f := by
  apply strTrim_eq_of_data
  rw [sdata_append]
  have hh : ∀ c, ("structure ".data ++ f.data).head? = some c →
      isWSC c = false := by
    intro c hc
    have h0 : ("structure ".data ++ f.data).head? = some 's' := rfl
    rw [h0] at hc
    injection hc with hc1
    rw [← hc1]
    decide
  have hl : ∀ c, ("structure ".data ++ f.data).getLast? = some c →
      isWSC c = false := by
    intro c hc
    rw [List.getLast?_append_of_ne_nil "structure ".data
      (goodTok_data_ne f hf)] at hc
    exact goodTokL_last f.data hf c hc
  have h := trim_padded [] ("structure ".data ++ f.data) []
    (by simp) (by simp) hh hl
  simpa using h

theorem header_ne (f : String) : ("structure " ++ f) ≠ "" := by
  intro h
  have h2 := congrArg String.data h
  rw [sdata_append] at h2
  simp at h2

theorem header_no_hash (f : String) :
    strStarts ("structure " ++ f) "#" = false := rfl

theorem goodTok_split (o : String) (ho : goodTok o = true) :
    strSplit o = [o] := by
  show (splitWSL o.data).map String.mk = [o]
  have h1 : splitWSL (joinSepL [' '] [o.data]) = [o.data] :=
    splitWSL_joinSep [o.data] (by
      intro t ht
      simp only [List.mem_singleton] at ht
      subst ht
      exact ho)
  have h2 : joinSepL [' '] [o.data] = o.data := rfl
  rw [h2] at h1
  rw [h1]
  rfl

theorem other_no_hash (o : String)
    (ho : strLower o = "inside" ∨ strLower o = "outside") :
    strStarts o "#" = false := by
  cases hp : strStarts o "#" with
  | false => rfl
  | true =>
    have h1 : prefL ['#'] o.data = true := hp
    have h2 := (prefL_hash _).mp h1
    have h3 : (lowerL o.data).head? = some '#' := by
      rw [lowerL, List.head?_map, h2]
      rfl
    rcases ho with h | h
    · have h4 := congrArg String.data h
      have h5 : (strLower o).data = lowerL o.data := rfl
      rw [h5] at h4
      rw [h4] at h3
      exact absurd h3 (by decide)
    · have h4 := congrArg String.data h
      have h5 : (strLower o).data = lowerL o.data := rfl
      rw [h5] at h4
      rw [h4] at h3
      exact absurd h3 (by decide)

theorem lowerL_joinSep (toks : List (List Char)) :
    lowerL (joinSepL [' '] toks) = joinSepL [' '] (toks.map lowerL) := by
  induction toks with
  | nil => rfl
  | cons t rest ih =>
    cases rest with
    | nil => rfl
    | cons u us =>
      show lowerL ((t ++ [' ']) ++ joinSepL [' '] (u :: us)) =
        (lowerL t ++ [' ']) ++ joinSepL [' '] ((u :: us).map lowerL)
      rw [lowerL_append, lowerL_append, ih]
      rfl

theorem goodTok_lower (k : String) (h : goodTok k = true) :
    goodTok (strLower k) = true :=
  goodTokL_lower k.data h

theorem goodToks_lower (ts : List String) (h : goodToks ts = true) :
    goodToks (ts.map strLower) = true := by
  simp only [goodToks, List.all_eq_true] at h ⊢
  intro t ht
  simp only [List.mem_map] at ht
  obtain ⟨x, hx, rfl⟩ := ht
  exact goodTok_lower x (h x hx)

theorem lower_normKV (k : String) (ts : List String) :
    strLower (normKV k ts) = normKV (strLower k) (ts.map strLower) := by
  rw [String.ext_iff]
  show lowerL (normKV k ts).data = (normKV (strLower k) (ts.map strLower)).data
  rw [normKV_data, normKV_data, lowerL_joinSep]
  congr 1
  simp only [List.map_cons, List.map_map]
  rfl

theorem normKV_end_structure (k : String) (ts : List String)
    (hk : goodTok k = true) (hts : goodToks ts = true) :
    (strLower (normKV k ts) = "end structure") ↔
      (strLower k = "end" ∧ ts.map strLower = ["structure"]) := by
  constructor
  · intro h
    have h1 : strSplit (strLower (normKV k ts)) =
        strLower k :: ts.map strLower := by
      rw [lower_normKV]
      exact normKV_split _ _ (goodTok_lower k hk) (goodToks_lower ts hts)
    rw [h] at h1
    have h2 : strSplit "end structure" = ["end", "structure"] := by decide
    rw [h2] at h1
    injection h1 with ha hb
    exact ⟨ha.symm, hb.symm⟩
  · intro h
    rw [lower_normKV, h.1, h.2]
    rfl

-- The filter step of the parser on the generated lines ----------------------

theorem cleanLines_append (a b : List String) :
    cleanLines (a ++ b) = cleanLines a ++ cleanLines b := by
  simp [cleanLines]

theorem cleanLines_cons_keep (x l : String) (xs : List String)
    (ht : strTrim x = l) (hne : l ≠ "") (hh : strStarts l "#" = false) :
    cleanLines (x :: xs) = l :: cleanLines xs := by
  simp only [cleanLines, List.map_cons, ht, List.filter_cons]
  have hp : (l ≠ "" && !strStarts l "#") = true := by
    rw [hh]
    simp [hne]
  rw [hp]
  simp

theorem clean_globals (gs : List (String × List String))
    (h : gs.all wfGlobalEntry = true) :
    cleanLines (gs.map (fun p => p.1 ++ " " ++ joinSp p.2)) =
      gs.map normGlobal := by
  induction gs with
  | nil => rfl
  | cons p rest ih =>
    obtain ⟨k, ts⟩ := p
    simp only [List.all_cons, Bool.and_eq_true] at h
    obtain ⟨hp, hrest⟩ := h
    simp only [wfGlobalEntry, Bool.and_eq_true, Bool.not_eq_true'] at hp
    obtain ⟨⟨⟨hk, hts⟩, hhash⟩, -⟩ := hp
    rw [List.map_cons]
    rw [cleanLines_cons_keep _ (normKV k ts) _ (trim_global_line k ts hk hts)
      (normKV_ne_empty k ts hk) (normKV_no_hash k ts hk hhash), ih hrest]
    rfl

theorem clean_props (ps : List (String × List String))
    (h : ps.all wfProp = true) :
    cleanLines (ps.map (fun p => "  " ++ p.1 ++ " " ++ joinSp p.2)) =
      ps.map normProp := by
  induction ps with
  | nil => rfl
  | cons p rest ih =>
    obtain ⟨k, ts⟩ := p
    simp only [List.all_cons, Bool.and_eq_true] at h
    obtain ⟨hp, hrest⟩ := h
    simp only [wfProp, Bool.and_eq_true, Bool.not_eq_true'] at hp
    obtain ⟨⟨⟨⟨⟨hk, hts⟩, hhash⟩, -⟩, -⟩, -⟩ := hp
    rw [List.map_cons]
    rw [cleanLines_cons_keep _ (normKV k ts) _ (trim_prop_line k ts hk hts)
      (normKV_ne_empty k ts hk) (normKV_no_hash k ts hk hhash), ih hrest]
    rfl

theorem clean_nested (ns : List String) (h : ns.all wfNested = true) :
    cleanLines (ns.map (fun n => "    " ++ n)) = ns := by
  induction ns with
  | nil => rfl
  | cons n rest ih =>
    simp only [List.all_cons, Bool.and_eq_true] at h
    obtain ⟨hn, hrest⟩ := h
    simp only [wfNested, Bool.and_eq_true] at hn
    obtain ⟨hcl, -⟩ := hn
    obtain ⟨hc, hne, hh⟩ := cleanLine_parts n hcl
    rw [List.map_cons]
    rw [cleanLines_cons_keep _ n _ (trim_ws_pre "    " n (by decide) hc hne)
      ((string_ne_iff_data n).mpr hne) hh, ih hrest]

theorem clean_others (os : List String) (h : os.all wfOther = true) :
    cleanLines (os.map (fun o => "  " ++ o)) = os := by
  induction os with
  | nil => rfl
  | cons o rest ih =>
    simp only [List.all_cons, Bool.and_eq_true] at h
    obtain ⟨ho, hrest⟩ := h
    simp only [wfOther, Bool.and_eq_true] at ho
    obtain ⟨hgo, hio⟩ := ho
    have hio' : strLower o = "inside" ∨ strLower o = "outside" := by
      simpa [beq_iff_eq] using hio
    rw [List.map_cons]
    rw [cleanLines_cons_keep _ o _
      (trim_ws_pre "  " o (by decide) (goodTok_trim o hgo)
        (goodTok_data_ne o hgo))
      ((string_ne_iff_data o).mpr (goodTok_data_ne o hgo))
      (other_no_hash o hio'), ih hrest]

theorem clean_genConstraint (c : PCon) (h : wfCon c = true) :
    cleanLines (genConstraint c) = normCon c := by
  cases c with
  | atomsC d =>
    simp only [wfCon, Bool.and_eq_true] at h
    obtain ⟨hat, hns⟩ := h
    rw [genConstraint]
    rw [cleanLines_append]
    rw [cleanLines_cons_keep _ (normKV "atoms" d.atoms) _
      (trim_atoms_line d.atoms hat)
      (normKV_ne_empty "atoms" d.atoms (by decide))
      (normKV_no_hash "atoms" d.atoms (by decide) (by decide))]
    rw [clean_nested d.constraints hns]
    rfl
  | simpleC sc =>
    simp only [wfCon, Bool.and_eq_true] at h
    obtain ⟨⟨⟨hkw, hblk⟩, hps⟩, hio⟩ := h
    have hio' : strLower sc.keyword = "inside" ∨
        strLower sc.keyword = "outside" := by
      simpa [beq_iff_eq] using hio
    rw [genConstraint]
    rw [cleanLines_cons_keep _ (normKV sc.keyword (sc.block :: sc.params)) _
      (trim_simple_line sc.keyword sc.block sc.params hkw hblk hps)
      (normKV_ne_empty _ _ hkw)
      (normKV_no_hash _ _ hkw (other_no_hash sc.keyword hio'))]
    rfl

theorem clean_cons (cs : List PCon) (h : cs.all wfCon = true) :
    cleanLines ((cs.map genConstraint).flatten) =
      (cs.map normCon).flatten := by
  induction cs with
  | nil => rfl
  | cons c rest ih =>
    simp only [List.all_cons, Bool.and_eq_true] at h
    rw [List.map_cons, List.flatten_cons, cleanLines_append,
      clean_genConstraint c h.1, ih h.2, List.map_cons, List.flatten_cons]

theorem clean_genStruct (s : StructBlock) (hs : wfStruct s = true) :
    cleanLines (genStruct s) = normStruct s := by
  rw [wfStruct_parts] at hs
  obtain ⟨hf, hps, -, hcs, hos⟩ := hs
  rw [genStruct, normStruct]
  rw [cleanLines_append, cleanLines_append, cleanLines_append]
  rw [cleanLines_cons_keep _ ("structure " ++ s.structure_file) _
    (trim_header_line s.structure_file hf) (header_ne s.structure_file)
    (header_no_hash s.structure_file)]
  rw [clean_props s.properties hps, clean_cons s.constraints hcs,
    clean_others s.others hos]
  rfl

theorem clean_structs (sl : List StructBlock) (h : sl.all wfStruct = true) :
    cleanLines ((sl.map genStruct).flatten) = (sl.map normStruct).flatten := by
  induction sl with
  | nil => rfl
  | cons s rest ih =>
    simp only [List.all_cons, Bool.and_eq_true] at h
    rw [List.map_cons, List.flatten_cons, cleanLines_append,
      clean_genStruct s h.1, ih h.2, List.map_cons, List.flatten_cons]

/-- The comment/blank filter reduces the generated file to its normalized
lines. -/
theorem clean_generate (c : Config) (hwf : wfConfig c = true) :
    cleanLines (generate_packmol_file c) = normLines c := by
  simp only [wfConfig, Bool.and_eq_true] at hwf
  obtain ⟨⟨hg, -⟩, hss⟩ := hwf
  rw [generate_packmol_file, cleanLines_append, cleanLines_append,
    clean_globals _ hg, clean_structs _ hss]
  have hb : cleanLines [""] = [] := rfl
  rw [hb, normLines]
  simp

-- Reparsing the normalized lines --------------------------------------------

theorem parse_globals (gs : List (String × List String)) :
    ∀ (g : List (String × List String)) (ss : List StructBlock)
      (rest : List String), gs.all wfGlobalEntry = true →
      parseLines g ss PMode.topGlobal (gs.map normGlobal ++ rest) =
        parseLines (gs.foldl (fun d p => dinsert d p.1 p.2) g) ss
          PMode.topGlobal rest := by
  induction gs with
  | nil =>
    intro g ss rest _
    rfl
  | cons p ps ih =>
    intro g ss rest h
    obtain ⟨k, ts⟩ := p
    simp only [List.all_cons, Bool.and_eq_true] at h
    obtain ⟨hp, hps⟩ := h
    simp only [wfGlobalEntry, Bool.and_eq_true, Bool.not_eq_true'] at hp
    obtain ⟨⟨⟨hk, hts⟩, -⟩, hstr⟩ := hp
    have htr := normKV_trim k ts hk hts
    have hdne := normKV_data_ne k ts hk
    have hspl := normKV_split k ts hk hts
    have hhdr : ¬ (isStructHeader (normKV k ts) = true) := by
      intro hcon
      obtain ⟨h1, h2⟩ := (isStructHeader_iff_tokens (normKV k ts) k ts htr
        hdne hspl).mp hcon
      rw [h1] at hstr
      cases hts0 : ts with
      | nil => exact h2 hts0
      | cons a as =>
        rw [hts0] at hstr
        simp at hstr
    rw [List.map_cons, List.cons_append, parseLines]
    simp only [normGlobal]
    rw [if_neg hhdr]
    simp only [hspl]
    exact ih (dinsert g k ts) ss rest hps

theorem parse_props (ps : List (String × List String)) :
    ∀ (g : List (String × List String)) (ss : List StructBlock)
      (f : String) (pr : List (String × List String)) (cs : List PCon)
      (os rest : List String),
      ps.all wfProp = true → ps.all noCollideProp = true →
      parseLines g ss (PMode.inStruct ⟨f, pr, cs, os⟩)
          (ps.map normProp ++ rest) =
        parseLines g ss (PMode.inStruct
          ⟨f, ps.foldl (fun d p => dinsert d p.1 p.2) pr, cs, os⟩) rest := by
  induction ps with
  | nil =>
    intro g ss f pr cs os rest _ _
    rfl
  | cons p ps' ih =>
    intro g ss f pr cs os rest hwf hnc
    obtain ⟨k, ts⟩ := p
    simp only [List.all_cons, Bool.and_eq_true] at hwf hnc
    obtain ⟨hp, hps⟩ := hwf
    obtain ⟨hnp, hnps⟩ := hnc
    simp only [wfProp, Bool.and_eq_true, Bool.not_eq_true', bne_iff_ne,
      ne_eq] at hp
    obtain ⟨⟨⟨⟨⟨hk, hts⟩, -⟩, hin⟩, hout⟩, hat⟩ := hp
    have htr := normKV_trim k ts hk hts
    have hdne := normKV_data_ne k ts hk
    have hspl := normKV_split k ts hk hts
    have hes : ¬ (strLower (normKV k ts) = "end structure") := by
      intro hcon
      obtain ⟨h1, h2⟩ := (normKV_end_structure k ts hk hts).mp hcon
      simp only [noCollideProp, Bool.not_eq_true'] at hnp
      rw [h1, h2] at hnp
      simp at hnp
    have hat2 : ¬ (strStarts (strLower (normKV k ts)) "atoms" = true) := by
      rw [startsWith_lower_token (normKV k ts) k ts "atoms" htr hdne hspl
        (by decide)]
      simp [hat]
    have hio2 : ¬ (strLower k = "inside" ∨ strLower k = "outside") := by
      intro hcon
      rcases hcon with h | h
      · exact hin h
      · exact hout h
    rw [List.map_cons, List.cons_append, parseLines]
    simp only [normProp]
    rw [if_neg hes, if_neg hat2]
    simp only [hspl]
    rw [if_neg hio2]
    exact ih g ss f (dinsert pr k ts) cs os rest hps hnps

theorem parse_others (os : List String) :
    ∀ (g : List (String × List String)) (ss : List StructBlock)
      (f : String) (pr : List (String × List String)) (cs : List PCon)
      (os0 rest : List String), os.all wfOther = true →
      parseLines g ss (PMode.inStruct ⟨f, pr, cs, os0⟩) (os ++ rest) =
        parseLines g ss (PMode.inStruct ⟨f, pr, cs, os0 ++ os⟩) rest := by
  induction os with
  | nil =>
    intro g ss f pr cs os0 rest _
    simp only [List.nil_append, List.append_nil]
  | cons o os' ih =>
    intro g ss f pr cs os0 rest h
    simp only [List.all_cons, Bool.and_eq_true] at h
    obtain ⟨ho, hos⟩ := h
    simp only [wfOther, Bool.and_eq_true] at ho
    obtain ⟨hgo, hio⟩ := ho
    have hio' : strLower o = "inside" ∨ strLower o = "outside" := by
      simpa [beq_iff_eq] using hio
    have hspl : strSplit o = [o] := goodTok_split o hgo
    have hes : ¬ (strLower o = "end structure") := by
      intro hcon
      rcases hio' with h1 | h1 <;> rw [h1] at hcon <;>
        exact absurd hcon (by decide)
    have hat2 : ¬ (strStarts (strLower o) "atoms" = true) := by
      rcases hio' with h1 | h1 <;> rw [h1] <;> decide
    rw [List.cons_append, parseLines]
    rw [if_neg hes, if_neg hat2]
    simp only [hspl]
    rw [if_pos hio']
    have h1 := ih g ss f pr cs (os0 ++ [o]) rest hos
    rw [show (os0 ++ [o]) ++ os' = os0 ++ o :: os' from by simp] at h1
    exact h1

theorem parse_nested (ns : List String) :
    ∀ (g : List (String × List String)) (ss : List StructBlock)
      (f : String) (pr : List (String × List String)) (cs : List PCon)
      (os : List String) (atoms acc rest : List String),
      ns.all wfNested = true →
      parseLines g ss (PMode.inAtoms ⟨f, pr, cs, os⟩ atoms acc)
          (ns ++ "end atoms" :: rest) =
        parseLines g ss (PMode.inStruct
          ⟨f, pr, cs ++ [PCon.atomsC ⟨atoms, acc ++ ns⟩], os⟩) rest := by
  induction ns with
  | nil =>
    intro g ss f pr cs os atoms acc rest _
    simp only [List.nil_append, List.append_nil]
    rw [parseLines, if_pos (by decide : strLower "end atoms" = "end atoms")]
  | cons n ns' ih =>
    intro g ss f pr cs os atoms acc rest h
    simp only [List.all_cons, Bool.and_eq_true] at h
    obtain ⟨hn, hns⟩ := h
    simp only [wfNested, Bool.and_eq_true, bne_iff_ne, ne_eq] at hn
    obtain ⟨-, hne'⟩ := hn
    rw [List.cons_append, parseLines, if_neg hne']
    have h1 := ih g ss f pr cs os atoms (acc ++ [n]) rest hns
    rw [show (acc ++ [n]) ++ ns' = acc ++ n :: ns' from by simp] at h1
    exact h1

theorem parse_con1 (c : PCon) :
    ∀ (g : List (String × List String)) (ss : List StructBlock)
      (f : String) (pr : List (String × List String)) (cs : List PCon)
      (os rest : List String), wfCon c = true →
      parseLines g ss (PMode.inStruct ⟨f, pr, cs, os⟩) (normCon c ++ rest) =
        parseLines g ss (PMode.inStruct ⟨f, pr, cs ++ [c], os⟩) rest := by
  cases c with
  | atomsC d =>
    intro g ss f pr cs os rest h
    simp only [wfCon, Bool.and_eq_true] at h
    obtain ⟨hat, hns⟩ := h
    have htr := normKV_trim "atoms" d.atoms (by decide) hat
    have hdne := normKV_data_ne "atoms" d.atoms (by decide)
    have hspl := normKV_split "atoms" d.atoms (by decide) hat
    have hes : ¬ (strLower (normKV "atoms" d.atoms) = "end structure") := by
      intro hcon
      obtain ⟨h1, -⟩ := (normKV_end_structure _ _ (by decide) hat).mp hcon
      exact absurd h1 (by decide)
    have hatp : strStarts (strLower (normKV "atoms" d.atoms)) "atoms" =
        true := by
      rw [startsWith_lower_token _ "atoms" d.atoms "atoms" htr hdne hspl
        (by decide)]
      decide
    simp only [normCon, List.cons_append, List.append_assoc]
    rw [parseLines]
    rw [if_neg hes, if_pos hatp]
    rw [hspl]
    have h1 := parse_nested d.constraints g ss f pr cs os d.atoms [] rest hns
    exact h1
  | simpleC sc =>
    intro g ss f pr cs os rest h
    simp only [wfCon, Bool.and_eq_true] at h
    obtain ⟨⟨⟨hkw, hblk⟩, hps⟩, hio⟩ := h
    have hio' : strLower sc.keyword = "inside" ∨
        strLower sc.keyword = "outside" := by
      simpa [beq_iff_eq] using hio
    have hts : goodToks (sc.block :: sc.params) = true := by
      simp only [goodToks, List.all_cons, Bool.and_eq_true]
      exact ⟨hblk, hps⟩
    have htr := normKV_trim sc.keyword (sc.block :: sc.params) hkw hts
    have hdne := normKV_data_ne sc.keyword (sc.block :: sc.params) hkw
    have hspl := normKV_split sc.keyword (sc.block :: sc.params) hkw hts
    have hes : ¬ (strLower (normKV sc.keyword (sc.block :: sc.params)) =
        "end structure") := by
      intro hcon
      obtain ⟨h1, -⟩ := (normKV_end_structure _ _ hkw hts).mp hcon
      rcases hio' with h2 | h2 <;> rw [h2] at h1 <;>
        exact absurd h1 (by decide)
    have hat2 : ¬ (strStarts (strLower (normKV sc.keyword
        (sc.block :: sc.params))) "atoms" = true) := by
      rw [startsWith_lower_token _ sc.keyword (sc.block :: sc.params)
        "atoms" htr hdne hspl (by decide)]
      rcases hio' with h2 | h2 <;> rw [h2] <;> decide
    simp only [normCon, List.singleton_append]
    rw [parseLines]
    rw [if_neg hes, if_neg hat2]
    simp only [hspl]
    rw [if_pos hio']

theorem parse_cons (cs : List PCon) :
    ∀ (g : List (String × List String)) (ss : List StructBlock)
      (f : String) (pr : List (String × List String)) (cs0 : List PCon)
      (os rest : List String), cs.all wfCon = true →
      parseLines g ss (PMode.inStruct ⟨f, pr, cs0, os⟩)
          ((cs.map normCon).flatten ++ rest) =
        parseLines g ss (PMode.inStruct ⟨f, pr, cs0 ++ cs, os⟩) rest := by
  induction cs with
  | nil =>
    intro g ss f pr cs0 os rest _
    simp only [List.map_nil, List.flatten_nil, List.nil_append,
      List.append_nil]
  | cons c cs' ih =>
    intro g ss f pr cs0 os rest h
    simp only [List.all_cons, Bool.and_eq_true] at h
    rw [List.map_cons, List.flatten_cons, List.append_assoc]
    rw [parse_con1 c g ss f pr cs0 os _ h.1]
    have h1 := ih g ss f pr (cs0 ++ [c]) os rest h.2
    rw [show (cs0 ++ [c]) ++ cs' = cs0 ++ c :: cs' from by simp] at h1
    exact h1

theorem parse_struct (s : StructBlock) (g : List (String × List String))
    (ss : List StructBlock) (rest : List String)
    (hwf : wfStruct s = true)
    (hnc : s.properties.all noCollideProp = true) :
    parseLines g ss (PMode.inStruct ⟨s.structure_file, [], [], []⟩)
        (s.properties.map normProp ++
          ((s.constraints.map normCon).flatten ++
            (s.others ++ ("end structure" :: rest)))) =
      parseLines g (ss ++ [s]) PMode.topSkip rest := by
  rw [wfStruct_parts] at hwf
  obtain ⟨hf, hps, hnd, hcs, hos⟩ := hwf
  have h1 := parse_props s.properties g ss s.structure_file [] [] []
    ((s.constraints.map normCon).flatten ++
      (s.others ++ ("end structure" :: rest))) hps hnc
  have h2 := parse_cons s.constraints g ss s.structure_file
    (s.properties.foldl (fun d p => dinsert d p.1 p.2) []) [] []
    (s.others ++ ("end structure" :: rest)) hcs
  have h3 := parse_others s.others g ss s.structure_file
    (s.properties.foldl (fun d p => dinsert d p.1 p.2) [])
    ([] ++ s.constraints) [] ("end structure" :: rest) hos
  have hfold : s.properties.foldl (fun d p => dinsert d p.1 p.2) [] =
      s.properties := by
    have h0 := foldl_dinsert_self s.properties [] hnd (by intro p hp; rfl)
    simpa using h0
  have heq := (h1.trans h2).trans h3
  have h5 : (⟨s.structure_file,
      s.properties.foldl (fun d p => dinsert d p.1 p.2) [],
      [] ++ s.constraints, [] ++ s.others⟩ : StructBlock) =
      ⟨s.structure_file, s.properties, s.constraints, s.others⟩ := by
    rw [hfold]
    simp
  rw [h5] at heq
  refine heq.trans ?_
  rw [parseLines, if_pos (by decide : strLower "end structure" =
    "end structure")]

theorem parse_structs (sl : List StructBlock) :
    ∀ (g : List (String × List String)) (ss : List StructBlock) (m : PMode),
      (m = PMode.topGlobal ∨ m = PMode.topSkip) →
      sl.all wfStruct = true →
      sl.all (fun s => s.properties.all noCollideProp) = true →
      parseLines g ss m ((sl.map normStruct).flatten) =
        Except.ok ⟨g, ss ++ sl⟩ := by
  induction sl with
  | nil =>
    intro g ss m hm _ _
    rcases hm with rfl | rfl
    · rfl
    · rfl
  | cons s sl' ih =>
    intro g ss m hm hwf hnc
    simp only [List.all_cons, Bool.and_eq_true] at hwf hnc
    have hf : goodTok s.structure_file = true := by
      have h0 := hwf.1
      rw [wfStruct_parts] at h0
      exact h0.1
    have hspl' : strSplit ("structure " ++ s.structure_file) =
        ["structure", s.structure_file] := by
      show (splitWSL ("structure " ++ s.structure_file).data).map
        String.mk = _
      have h1 : splitWSL (joinSepL [' ']
          ["structure".data, s.structure_file.data]) =
          ["structure".data, s.structure_file.data] := by
        refine splitWSL_joinSep _ ?_
        intro t ht
        simp only [List.mem_cons, List.not_mem_nil, or_false] at ht
        rcases ht with rfl | rfl
        · decide
        · exact hf
      have h2 : ("structure " ++ s.structure_file).data =
          joinSepL [' '] ["structure".data, s.structure_file.data] := by
        rw [sdata_append]
        rfl
      rw [h2, h1]
      rfl
    have htr' : trimL ("structure " ++ s.structure_file).data =
        ("structure " ++ s.structure_file).data :=
      congrArg String.data (trim_header_line s.structure_file hf)
    have hne' : ("structure " ++ s.structure_file).data ≠ [] := by
      rw [sdata_append]
      simp
    have hhdr : isStructHeader ("structure " ++ s.structure_file) = true :=
      (isStructHeader_iff_tokens _ "structure" [s.structure_file] htr' hne'
        hspl').mpr ⟨by decide, by simp⟩
    have hopen : openStruct ("structure " ++ s.structure_file) =
        Except.ok (PMode.inStruct ⟨s.structure_file, [], [], []⟩) := by
      rw [openStruct]
      simp only [hspl']
    have hbody := parse_struct s g ss ((sl'.map normStruct).flatten)
      hwf.1 hnc.1
    have htail := ih g (ss ++ [s]) PMode.topSkip (Or.inr rfl) hwf.2 hnc.2
    rw [show (ss ++ [s]) ++ sl' = ss ++ s :: sl' from by simp] at htail
    rw [List.map_cons, List.flatten_cons, normStruct]
    simp only [List.cons_append, List.append_assoc, List.nil_append]
    rcases hm with rfl | rfl
    · rw [parseLines, if_pos hhdr]
      simp only [hopen]
      exact hbody.trans htail
    · rw [parseLines, if_pos hhdr]
      simp only [hopen]
      exact hbody.trans htail

/-- The parser maps the normalized generated lines of a well-formed,
collision-free configuration back to that configuration. -/
theorem parse_normLines (c : Config) (hwf : wfConfig c = true)
    (hnc : noCollide c = true) :
    parseLines [] [] PMode.topGlobal (normLines c) = Except.ok c := by
  simp only [wfConfig, Bool.and_eq_true] at hwf
  obtain ⟨⟨hg, hgn⟩, hss⟩ := hwf
  rw [normLines, parse_globals c.globalOpts [] []
    ((c.structures.map normStruct).flatten) hg]
  have hfold : c.globalOpts.foldl (fun d p => dinsert d p.1 p.2) [] =
      c.globalOpts := by
    have h0 := foldl_dinsert_self c.globalOpts [] hgn (by intro p hp; rfl)
    simpa using h0
  rw [hfold]
  have h1 := parse_structs c.structures c.globalOpts [] PMode.topGlobal
    (Or.inl rfl) hss hnc
  exact h1.trans rfl

-- C1: the parse/generate round-trip -----------------------------------------

/-- A parser-producible deck whose structure block holds the property
`("end", ["structure"])` (written `end  structure`, two spaces, which the
parser treats as a property line). -/
def rtCexLines : List String :=
  ["structure f.pdb", "end  structure", "end structure"]

/-- The configuration the parser returns for `rtCexLines`. -/
def rtCexCfg : Config :=
  ⟨[], [⟨"f.pdb", [("end", ["structure"])], [], []⟩]⟩

/-- C1 counterexample: the round-trip `parse(generate(c)) == c` fails for the
parser-produced configuration `rtCexCfg`, because the generator writes its
`("end", ["structure"])` property back single-spaced as `end structure`,
which the reparse reads as the block delimiter; the property is lost. -/
theorem parse_generate_counterexample :
    parse_packmol_file rtCexLines = Except.ok rtCexCfg ∧
      parse_packmol_file (generate_packmol_file rtCexCfg) ≠
        Except.ok rtCexCfg := by
  constructor
  · rfl
  · intro hcon
    have h2 : parse_packmol_file (generate_packmol_file rtCexCfg) =
        Except.ok (⟨[], [⟨"f.pdb", [], [], []⟩]⟩ : Config) := rfl
    rw [h2] at hcon
    simp only [Except.ok.injEq] at hcon
    simp [rtCexCfg, Config.mk.injEq] at hcon

/-- C1 (amended): for every configuration `c` produced by the parser, except
those containing a property whose key/value rejoin (lowercased,
single-spaced) to the delimiter `end structure` (the `noCollide` yardstick),
generating dialect text from `c` and reparsing it returns exactly `c`. -/
theorem parse_generate_roundtrip (lines : List String) (c : Config)
    (h : parse_packmol_file lines = Except.ok c)
    (hnc : noCollide c = true) :
    parse_packmol_file (generate_packmol_file c) = Except.ok c := by
  have hwf := parse_packmol_wf lines c h
  rw [parse_packmol_file, clean_generate c hwf]
  exact parse_normLines c hwf hnc

/-- Deck used to witness the round-trip theorem. -/
def rtLines0 : List String :=
  ["tolerance 2.0", "output out.pdb", "structure water.pdb", "  number 10",
    "  inside box 0. 0. 0. 30. 30. 30.", "end structure"]

/-- The configuration parsed from `rtLines0`. -/
def rtCfg0 : Config :=
  ⟨[("tolerance", ["2.0"]), ("output", ["out.pdb"])],
    [⟨"water.pdb", [("number", ["10"])],
      [PCon.simpleC ⟨"inside", "box",
        ["0.", "0.", "0.", "30.", "30.", "30."]⟩], []⟩]⟩

theorem parse_generate_roundtrip_witness :
    parse_packmol_file rtLines0 = Except.ok rtCfg0 ∧
      noCollide rtCfg0 = true ∧
      parse_packmol_file (generate_packmol_file rtCfg0) =
        Except.ok rtCfg0 :=
  ⟨rfl, rfl, parse_generate_roundtrip rtLines0 rtCfg0 rfl rfl⟩

end Packmol
